import Mathlib

/-!
nix2container: layer construction and closure ordering

A shallow embedding of

* `nix/layers.go`: `getPaths`, `isPathInLayers`, `newLayers`, `NewLayers`,
  `NewLayersNonReproducible`;
* `closure/layered.go`: `buildGraph`, `SortedPathsByPopularity`, `SortedPathsByNarSize`;
* `closure/file.go`: `Storepath`, `ReadClosureGraphFile`;
* `cmd/layers.go`: the two `Run` functions, from the sorting step to the layer builder.

The function `Score` of package `closure`, the tar and digest functions of package `nix`
and the record types of package `types` are not among the sources at hand: `Score` is
modelled from the specification, the digest functions are parameters.

Go strings are Lean `String`s, Go `int`/`int64` are `Int` (no arithmetic that
could overflow is performed on them), a Go slice is a `List`, a nilable pointer
is an `Option`, and a Go `error` is `Option Error` (`none` is `nil`).
-/

set_option linter.dupNamespace false

namespace Nix2Container

/-! ## Data model (package `types`) -/

/-- Modelled from the spec: the `types.Perm` record (declared in package `types`),
a permission override with the fields `regex`, `mode`, `uid`, `gid`, `uname`, `gname`. -/
structure Perm where
  Regex : String
  Mode : String
  Uid : Int
  Gid : Int
  Uname : String
  Gname : String
deriving DecidableEq, Repr

/-- Modelled from the spec: the `types.PermPath` rule of the permissions file,
`{path, regex, mode, uid, gid, uname, gname}`. -/
structure PermPath where
  Path : String
  Regex : String
  Mode : String
  Uid : Int
  Gid : Int
  Uname : String
  Gname : String
deriving DecidableEq, Repr

/-- Modelled from the spec: the `types.Rewrite` record, `(regex, repl)`. -/
structure Rewrite where
  Regex : String
  Repl : String
deriving DecidableEq, Repr

/-- Modelled from the spec: the `types.RewritePath` rule of the rewrites file,
`{path, regex, repl}`. -/
structure RewritePath where
  Path : String
  Regex : String
  Repl : String
deriving DecidableEq, Repr

/-- Modelled from the spec: the `types.PathOptions` record, a set of `Perm` overrides and
at most one `Rewrite`. `Perms` is a Go slice whose nil-ness is observable by
`reflect.DeepEqual`: `none` is the nil slice, `some l` a non-nil slice with elements `l`.
`Rewrite` is a struct value; its zero value has two empty strings. -/
structure PathOptions where
  Rewrite : Rewrite
  Perms : Option (List Perm)
deriving DecidableEq, Repr

/-- Modelled from the spec: the `types.Path` record, an identifier plus optional
`PathOptions` (a nilable pointer in the source). -/
structure Path where
  Path : String
  Options : Option PathOptions
deriving DecidableEq, Repr

/-- Modelled from the spec: `types.Paths`, the ordered sequence of `Path` entries. -/
abbrev Paths := List Path

/-- Modelled from the spec: the OCI history entry `v1.History`, passed through verbatim
into each produced layer. -/
structure History where
  Created : Option String
  CreatedBy : String
  Author : String
  Comment : String
  EmptyLayer : Bool
deriving DecidableEq, Repr

/-- Modelled from the spec: the `types.Layer` descriptor with the fields `digest`,
`diffIDs`, `size`, `paths`, `mediaType`, `history` and `layerPath`. -/
structure Layer where
  Digest : String
  Size : Int
  DiffIDs : String
  Paths : Paths
  MediaType : String
  LayerPath : String
  History : History
deriving DecidableEq, Repr

/-- A Go `error` value that is not nil. -/
structure Error where
  msg : String
deriving DecidableEq, Repr

/-- The zero value of `v1.History`. -/
def zeroHistory : History :=
  { Created := none, CreatedBy := "", Author := "", Comment := "", EmptyLayer := false }

/-- The zero value `types.Layer{}`. -/
def zeroLayer : Layer :=
  { Digest := "", Size := 0, DiffIDs := "", Paths := [], MediaType := "", LayerPath := "",
    History := zeroHistory }

/-- Modelled from the spec: the constant `v1.MediaTypeImageLayer`, the OCI image layer
media type. -/
def MediaTypeImageLayer : String := "application/vnd.oci.image.layer.v1.tar"

/-! ## Path option resolver (`nix/layers.go`, `getPaths`) -/

/-- `isPathInLayers`: some path record of some layer is `reflect.DeepEqual` to `path`.
On the model `reflect.DeepEqual` is structural equality: pointers are compared through
their pointees and a nil slice differs from a non-nil one. -/
def isPathInLayers (layers : List Layer) (path : Path) : Bool :=
  layers.any (fun layer => layer.Paths.any (fun p => decide (p = path)))

/-- The first inner loop of `getPaths`, over `permPaths`. The state is
`(hasPathOptions, perms)`; `perms` starts as the nil slice (`[]`) and every matching rule
appends one `types.Perm` built field by field from the rule. -/
def permLoop (p : String) (permPaths : List PermPath) (st : Bool × List Perm) :
    Bool × List Perm :=
  permPaths.foldl
    (fun st perm =>
      if p = perm.Path then
        (true, st.2 ++ [{ Regex := perm.Regex, Mode := perm.Mode, Uid := perm.Uid,
                          Gid := perm.Gid, Uname := perm.Uname, Gname := perm.Gname }])
      else st)
    st

/-- The second inner loop of `getPaths`, over `rewrites`. The state is
`(hasPathOptions, pathOptions)`; every matching rule overwrites `pathOptions.Rewrite`. -/
def rewriteLoop (p : String) (rewrites : List RewritePath) (st : Bool × PathOptions) :
    Bool × PathOptions :=
  rewrites.foldl
    (fun st rewrite =>
      if p = rewrite.Path then
        (true, { st.2 with Rewrite := { Regex := rewrite.Regex, Repl := rewrite.Repl } })
      else st)
    st

/-- The zero value of `types.PathOptions` (`var pathOptions types.PathOptions`). -/
def zeroPathOptions : PathOptions :=
  { Rewrite := { Regex := "", Repl := "" }, Perms := none }

/-- The `types.Path` record built for `p` by one iteration of the outer loop of `getPaths`,
before the two exclusion tests. The appended-to slice `perms` is non-nil exactly when it is
non-empty, so `if perms != nil` is the test `perms ≠ []`. -/
def resolvePath (p : String) (rewrites : List RewritePath) (permPaths : List PermPath) : Path :=
  let st1 := permLoop p permPaths (false, [])
  let perms := st1.2
  let pathOptions : PathOptions :=
    if perms ≠ [] then { zeroPathOptions with Perms := some perms } else zeroPathOptions
  let st2 := rewriteLoop p rewrites (st1.1, pathOptions)
  { Path := p, Options := if st2.1 then some st2.2 else none }

/-- `getPaths`: resolve every store path in input order and keep those that are neither
equal to `exclude` nor already present in a parent layer. -/
def getPaths (storePaths : List String) (parents : List Layer) (rewrites : List RewritePath)
    (exclude : String) (permPaths : List PermPath) : Paths :=
  storePaths.foldl
    (fun paths p =>
      let path := resolvePath p rewrites permPaths
      if p = exclude then paths
      else if isPathInLayers parents path then paths
      else paths ++ [path])
    []

/-! ## Layer partitioner and builder (`nix/layers.go`, `newLayers`) -/

/-- The digest primitive consumed by `newLayers` (`TarPathsSum` and `TarPathsWrite` of
package `nix`). `TarPathsSum paths` yields `(digest, size)`; `TarPathsWrite paths dir`
yields `(layerPath, digest, size)`; either may fail with an error. -/
structure DigestPrimitive where
  TarPathsSum : Paths → Except Error (String × Int)
  TarPathsWrite : Paths → String → Except Error (String × String × Int)

/-- The local type `layerJob` of `newLayers`. -/
structure layerJob where
  index : Nat
  layerPaths : Paths
deriving DecidableEq, Repr

/-- The local type `result` of `newLayers`. -/
structure result where
  index : Nat
  layer : Layer
  err : Option Error
deriving DecidableEq, Repr

/-- The Go slice expression `xs[lo:hi]`. -/
def slice {α : Type} (xs : List α) (lo hi : Nat) : List α :=
  (xs.take hi).drop lo

/-- The value of `numLayers`: `maxLayers` raised to at least 1, then capped by `totalPaths`. -/
def numLayersOf (totalPaths : Nat) (maxLayers : Int) : Nat :=
  let maxLayers := if maxLayers < 1 then 1 else maxLayers
  let numLayers := if (totalPaths : Int) < maxLayers then (totalPaths : Int) else maxLayers
  numLayers.toNat

/-- The `jobs` slice: job `i` holds `paths[i:end]` with `end = i + 1`, except for the last
job, whose `end` is `totalPaths`. -/
def makeJobs (paths : Paths) (numLayers : Nat) : List layerJob :=
  (List.range numLayers).map fun i =>
    let stop := if i = numLayers - 1 then paths.length else i + 1
    { index := i, layerPaths := slice paths i stop }

/-- The body of a worker for one job: call the digest primitive selected by `tarDirectory`
and build the layer, or report the error with a zero-valued layer. -/
def runJob (prim : DigestPrimitive) (tarDirectory : String) (history : History)
    (j : layerJob) : result :=
  let r : Except Error (String × String × Int) :=
    if tarDirectory = "" then
      match prim.TarPathsSum j.layerPaths with
      | .ok (d, sz) => .ok ("", d, sz)
      | .error e => .error e
    else prim.TarPathsWrite j.layerPaths tarDirectory
  match r with
  | .error e => { index := j.index, layer := zeroLayer, err := some e }
  | .ok (lp, d, sz) =>
    let lay : Layer :=
      { Digest := d, DiffIDs := d, Size := sz, Paths := j.layerPaths,
        MediaType := MediaTypeImageLayer, LayerPath := "", History := history }
    let lay : Layer :=
      if tarDirectory ≠ "" then { lay with MediaType := MediaTypeImageLayer, LayerPath := lp }
      else lay
    { index := j.index, layer := lay, err := none }

/-- The collecting loop of `newLayers`: starting from `numLayers` zero-valued layers and no
error, each received result is stored at its index, and the first error received is kept. -/
def collectResults (numLayers : Nat) (received : List result) : List Layer × Option Error :=
  received.foldl
    (fun st r =>
      let firstErr := if r.err ≠ none ∧ st.2 = none then r.err else st.2
      (st.1.set r.index r.layer, firstErr))
    (List.replicate numLayers zeroLayer, none)

/-- The results in the order in which they are received from `resCh`. The worker pool is
abstracted by `sched`, the order in which the jobs' results arrive: every job is sent once
on `jobCh`, taken by exactly one worker and answered by exactly one result, so `sched` is a
permutation of the job indices `0 .. numLayers-1`; the collecting loop receives `numLayers`
results. -/
def receivedResults (prim : DigestPrimitive) (sched : List Nat) (tarDirectory : String)
    (history : History) (jobs : List layerJob) (numLayers : Nat) : List result :=
  (sched.filterMap fun k => (jobs.get? k).map (runJob prim tarDirectory history)).take numLayers

/-- `newLayers`: the pair `(layers, err)` returned for the resolved path list `paths`. -/
def newLayers (prim : DigestPrimitive) (sched : List Nat) (paths : Paths)
    (tarDirectory : String) (maxLayers : Int) (history : History) :
    List Layer × Option Error :=
  let totalPaths := paths.length
  if totalPaths = 0 then ([], none)
  else
    let numLayers := numLayersOf totalPaths maxLayers
    let jobs := makeJobs paths numLayers
    let st := collectResults numLayers
      (receivedResults prim sched tarDirectory history jobs numLayers)
    match st.2 with
    | some firstErr => ([], some firstErr)
    | none => ([] ++ st.1, none)

/-- `NewLayers`: resolve the paths, then build the layers in memory. -/
def NewLayers (prim : DigestPrimitive) (sched : List Nat) (storePaths : List String)
    (maxLayers : Int) (parents : List Layer) (rewrites : List RewritePath) (exclude : String)
    (perms : List PermPath) (history : History) : List Layer × Option Error :=
  let paths := getPaths storePaths parents rewrites exclude perms
  newLayers prim sched paths "" maxLayers history

/-- `NewLayersNonReproducible`: resolve the paths, then build the layers and write their tar
files under `tarDirectory`. -/
def NewLayersNonReproducible (prim : DigestPrimitive) (sched : List Nat)
    (storePaths : List String) (maxLayers : Int) (tarDirectory : String) (parents : List Layer)
    (rewrites : List RewritePath) (exclude : String) (perms : List PermPath)
    (history : History) : List Layer × Option Error :=
  let paths := getPaths storePaths parents rewrites exclude perms
  newLayers prim sched paths tarDirectory maxLayers history

/-! ## Size sorter (`closure/layered.go`, `SortedPathsByNarSize`) -/

/-- The record `Storepath` of `closure/file.go`. -/
structure Storepath where
  Path : String
  References : List String
  NarSize : Int
  ClosureSize : Int
  NarHash : String
deriving DecidableEq, Repr

/-- The local type `sizedPath` of `SortedPathsByNarSize`. -/
structure sizedPath where
  path : String
  size : Int
deriving DecidableEq, Repr

/-- The comparison passed to `sort.Slice`, on the elements rather than on their indices:
on equal sizes the smaller path comes first, otherwise the larger size comes first. Go
compares strings bytewise, which on UTF-8 text is the lexicographic order of the
characters. -/
def sizedLess (a b : sizedPath) : Bool :=
  if a.size = b.size then decide (a.path.toList < b.path.toList)
  else decide (a.size > b.size)

/-- The inner loop of insertion sort: `x` moves left past every neighbour `y` with
`less x y`. The sorted prefix is held in reverse, nearest neighbour first, and so is the
result. -/
def sink {α : Type} (less : α → α → Bool) (x : α) : List α → List α
  | [] => [x]
  | y :: rest => if less x y then y :: sink less x rest else x :: y :: rest

/-- The library call `sort.Slice(xs, less)`, which rearranges `xs` into an order sorted by
`less`. The library promises no stability and its algorithm is not part of this repository;
it is rendered here by insertion sort (the library's routine on short slices): the elements
are taken from left to right and each is sunk into the sorted prefix. -/
def sortSlice {α : Type} (less : α → α → Bool) (xs : List α) : List α :=
  (xs.foldl (fun rev x => sink less x rev) []).reverse

/-- The slice `sized` of `SortedPathsByNarSize` after the call of `sort.Slice`. -/
def sortedSized (storepaths : List Storepath) : List sizedPath :=
  sortSlice sizedLess (storepaths.map fun sp => { path := sp.Path, size := sp.NarSize })

/-- `SortedPathsByNarSize`: the paths of the sorted `sized` slice, and a nil error. -/
def SortedPathsByNarSize (storepaths : List Storepath) : List String × Option Error :=
  ((sortedSized storepaths).map (fun s => s.path), none)

/-! ## Closure file (`closure/file.go`, `ReadClosureGraphFile`) -/

/-- A JSON document as the decoder `json.Unmarshal` of the Go standard library sees it.
`num n` is a number written as the integer `n`; `nonInt` stands for any number written with
a fraction or an exponent. The members of an object are kept in document order. -/
inductive Json where
  | null
  | bool (b : Bool)
  | num (n : Int)
  | nonInt
  | str (s : String)
  | arr (elems : List Json)
  | obj (members : List (String × Json))

/-- The fields of `Storepath`, which carry the JSON names `path`, `references`, `narSize`,
`closureSize` and `narHash`. -/
inductive Field where
  | Path
  | References
  | NarSize
  | ClosureSize
  | NarHash
deriving DecidableEq, Repr

/-- The field selected for an object key, for keys that are spelled exactly like the JSON
name of a field. (The library also accepts keys that differ in letter case; every function
below takes the key matching as a parameter.) -/
def exactKeyField (key : String) : Option Field :=
  if key = "path" then some Field.Path
  else if key = "references" then some Field.References
  else if key = "narSize" then some Field.NarSize
  else if key = "closureSize" then some Field.ClosureSize
  else if key = "narHash" then some Field.NarHash
  else none

/-- The error of the decoder for a JSON value of the wrong type (`UnmarshalTypeError`). -/
def typeError : Error := { msg := "json: cannot unmarshal value into Go value" }

/-- The error of the decoder for text that is not JSON (`SyntaxError`). -/
def syntaxError : Error := { msg := "json: invalid character" }

/-- Decoding into a Go `string` that holds `cur`: a JSON string is stored, `null` leaves the
value as it is, anything else is a type error. -/
def decodeString (cur : String) : Json → Except Error String
  | .str s => .ok s
  | .null => .ok cur
  | _ => .error typeError

/-- Decoding into a Go `int64` that holds `cur`: an integer in range is stored, `null`
leaves the value as it is, anything else is a type error. -/
def decodeInt64 (cur : Int) : Json → Except Error Int
  | .num n => if -9223372036854775808 ≤ n ∧ n ≤ 9223372036854775807 then .ok n
              else .error typeError
  | .null => .ok cur
  | _ => .error typeError

/-- Decoding the elements of a JSON array into the elements of a `[]string`. -/
def decodeStringElems : List Json → Except Error (List String)
  | [] => .ok []
  | j :: rest =>
    match decodeString "" j with
    | .error e => .error e
    | .ok x =>
      match decodeStringElems rest with
      | .error e => .error e
      | .ok xs => .ok (x :: xs)

/-- Decoding into a Go `[]string`: an array replaces the slice, `null` makes it nil. -/
def decodeStrings : Json → Except Error (List String)
  | .arr elems => decodeStringElems elems
  | .null => .ok []
  | _ => .error typeError

/-- Decoding the value of one object member into the field it was matched with. -/
def setField (sp : Storepath) (f : Field) (v : Json) : Except Error Storepath :=
  match f with
  | .Path =>
    match decodeString sp.Path v with
    | .ok x => .ok { sp with Path := x }
    | .error e => .error e
  | .References =>
    match decodeStrings v with
    | .ok x => .ok { sp with References := x }
    | .error e => .error e
  | .NarSize =>
    match decodeInt64 sp.NarSize v with
    | .ok x => .ok { sp with NarSize := x }
    | .error e => .error e
  | .ClosureSize =>
    match decodeInt64 sp.ClosureSize v with
    | .ok x => .ok { sp with ClosureSize := x }
    | .error e => .error e
  | .NarHash =>
    match decodeString sp.NarHash v with
    | .ok x => .ok { sp with NarHash := x }
    | .error e => .error e

/-- Decoding the members of a JSON object into a `Storepath`, in document order: a member
whose key matches no field is skipped, a field without member keeps its value. -/
def decodeMembers (keyField : String → Option Field) :
    List (String × Json) → Storepath → Except Error Storepath
  | [], sp => .ok sp
  | kv :: rest, sp =>
    match keyField kv.1 with
    | none => decodeMembers keyField rest sp
    | some f =>
      match setField sp f kv.2 with
      | .error e => .error e
      | .ok sp' => decodeMembers keyField rest sp'

/-- The zero value `Storepath{}`. -/
def zeroStorepath : Storepath :=
  { Path := "", References := [], NarSize := 0, ClosureSize := 0, NarHash := "" }

/-- Decoding one element of the top-level array into a new `Storepath`. -/
def decodeRecord (keyField : String → Option Field) : Json → Except Error Storepath
  | .obj members => decodeMembers keyField members zeroStorepath
  | .null => .ok zeroStorepath
  | _ => .error typeError

/-- Decoding the elements of the top-level array. -/
def decodeRecords (keyField : String → Option Field) :
    List Json → Except Error (List Storepath)
  | [] => .ok []
  | j :: rest =>
    match decodeRecord keyField j with
    | .error e => .error e
    | .ok sp =>
      match decodeRecords keyField rest with
      | .error e => .error e
      | .ok sps => .ok (sp :: sps)

/-- The call `json.Unmarshal(content, &storepaths)` on content that is the JSON document
`doc`, for `storepaths` of type `[]Storepath`. The decoder reports the first type error it
met; the slice decoded so far is not modelled in that case, since `ReadClosureGraphFile`
returns it next to the error and both callers then exit. -/
def unmarshalStorepaths (keyField : String → Option Field) :
    Json → Except Error (List Storepath)
  | .arr elems => decodeRecords keyField elems
  | .null => .ok []
  | _ => .error typeError

/-- `ReadClosureGraphFile`. `readFile` is `os.ReadFile` followed by the reading of the bytes
as JSON text: an error when the file cannot be read, `none` when the bytes are not JSON,
the document otherwise. -/
def ReadClosureGraphFile (readFile : String → Except Error (Option Json))
    (keyField : String → Option Field) (filename : String) :
    Except Error (List Storepath) :=
  match readFile filename with
  | .error err => .error err
  | .ok none => .error syntaxError
  | .ok (some doc) => unmarshalStorepaths keyField doc

/-! ## Closure graph model (`closure/layered.go`, `buildGraph`) -/

/-- The graph `simple.DirectedGraph` of the gonum library, as far as `buildGraph` uses it:
the ids of the nodes in the order in which they were added, and the set of edges
`(from, to)` in the order in which they were first set. -/
structure DirectedGraph where
  nodes : List Nat
  edges : List (Nat × Nat)
deriving DecidableEq, Repr

/-- The graph returned by `simple.NewDirectedGraph()`. -/
def NewDirectedGraph : DirectedGraph := { nodes := [], edges := [] }

/-- The id of the node returned by `g.NewNode()`: 0 in a graph without node, otherwise one
more than the largest id in use (no node is ever removed, so no id is free for reuse). -/
def DirectedGraph.NewNode (g : DirectedGraph) : Nat :=
  if g.nodes = [] then 0 else g.nodes.foldl max 0 + 1

/-- The call `g.AddNode(n)` for a node whose id is not in the graph. -/
def DirectedGraph.AddNode (g : DirectedGraph) (n : Nat) : DirectedGraph :=
  { g with nodes := g.nodes ++ [n] }

/-- The call `g.SetEdge(g.NewEdge(u, v))` for `u ≠ v` (the library refuses a self edge, and
`buildGraph` never passes one): both ends are added as nodes when they are missing, and the
edge is recorded once. -/
def DirectedGraph.SetEdge (g : DirectedGraph) (u v : Nat) : DirectedGraph :=
  let nodes := if u ∈ g.nodes then g.nodes else g.nodes ++ [u]
  let nodes := if v ∈ nodes then nodes else nodes ++ [v]
  { nodes := nodes, edges := if (u, v) ∈ g.edges then g.edges else g.edges ++ [(u, v)] }

/-- The Go map `paths` of `buildGraph`, from identifier to node id, as the list of its
entries in the order of insertion. An entry is only ever inserted for an absent key. -/
abbrev PathMap := List (String × Nat)

/-- The node for the identifier `x`, as obtained for `u` and for `v` in `buildGraph`: the
node stored under the id found in `paths` (every id in `paths` was added to `g`), or else a
new node, which is added to `g` and recorded in `paths`. Returns the id of the node and the
updated `paths` and `g`. -/
def nodeFor (st : PathMap × DirectedGraph) (x : String) : Nat × (PathMap × DirectedGraph) :=
  match st.1.lookup x with
  | some id => (id, st)
  | none =>
    let u := st.2.NewNode
    (u, (st.1 ++ [(x, u)], st.2.AddNode u))

/-- The inner loop of `buildGraph` over the references of a record whose node is `u`. -/
def addReferences (u : Nat) (references : List String) (st : PathMap × DirectedGraph) :
    PathMap × DirectedGraph :=
  references.foldl
    (fun st r =>
      let v := nodeFor st r
      if u = v.1 then v.2 else (v.2.1, v.2.2.SetEdge u v.1))
    st

/-- One iteration of the outer loop of `buildGraph`, for the record `p`. -/
def addStorepath (st : PathMap × DirectedGraph) (p : Storepath) : PathMap × DirectedGraph :=
  let u := nodeFor st p.Path
  addReferences u.1 p.References u.2

/-- `buildGraph`: the map from identifier to node id, and the graph. -/
def buildGraph (storepaths : List Storepath) : PathMap × DirectedGraph :=
  storepaths.foldl addStorepath ([], NewDirectedGraph)

/-! ## Popularity order (`closure/layered.go`, `SortedPathsByPopularity`) -/

/-- The element type of the slice returned by `Score`: a node id and its score. -/
structure scored where
  id : Nat
  score : Int
deriving DecidableEq, Repr

/-- The inner loop of `SortedPathsByPopularity` for one scored node: `out[i]` starts as the
empty string and is overwritten by every key of `paths` whose id is the node's id. `order`
is the order in which this `range` loop visits the entries of the map. -/
def pathOfId (order : List (String × Nat)) (id : Nat) : String :=
  order.foldl (fun cur e => if e.2 = id then e.1 else cur) ""

/-- `SortedPathsByPopularity`. `scoreFn` is the function `Score` of package `closure`, taken
as a parameter; `iter i` is the order in which the `range` loop over the map `paths` visits
its entries at iteration `i` of the outer loop (Go leaves it unspecified; it is a
permutation of the entries). -/
def SortedPathsByPopularity (scoreFn : DirectedGraph → List scored × Option Error)
    (iter : Nat → List (String × Nat)) (storepaths : List Storepath) :
    List String × Option Error :=
  let pg := buildGraph storepaths
  let sc := scoreFn pg.2
  match sc.2 with
  | some err => ([], some err)
  | none => (sc.1.enum.map (fun is => pathOfId (iter is.1) is.2.id), none)

/-! ## Popularity scorer (`Score`) -/

/-- Modelled from the spec: part of the function `Score` of package `closure`, which is not
among the sources at hand. `reachVia edges ws u v` tells whether `v` can be reached from `u`
by following at least one edge, passing only through nodes of `ws` on the way. -/
def reachVia (edges : List (Nat × Nat)) : List Nat → Nat → Nat → Bool
  | [], u, v => decide ((u, v) ∈ edges)
  | w :: ws, u, v =>
    reachVia edges ws u v || (reachVia edges ws u w && reachVia edges ws w v)

/-- Modelled from the spec: part of the function `Score`. The popularity score of the node
`v`: "the number of distinct other nodes that can reach it by following edges". -/
def popularity (g : DirectedGraph) (v : Nat) : Nat :=
  (g.nodes.filter (fun u => decide (u ≠ v) && reachVia g.edges g.nodes u v)).length

/-- Modelled from the spec: the function `Score` of package `closure`, which is not among the
sources at hand. Every node gets its popularity score, and the nodes are returned "ordered
by descending score; ties broken deterministically (stable by discovery order)": the nodes
are taken in the order of their ids and sorted by the stable insertion sort `sortSlice`.
No error arises on a graph built by `buildGraph`. -/
def Score (g : DirectedGraph) : List scored × Option Error :=
  (sortSlice (fun a b => decide (a.score > b.score))
    (g.nodes.map (fun v => { id := v, score := (popularity g v : Int) })), none)

/-! ## Command pipeline (`cmd/layers.go`) -/

/-- The `switch sortBy` of the two `Run` functions: the size order for `"nar-size"`, the
popularity order otherwise. -/
def sortStorepaths (scoreFn : DirectedGraph → List scored × Option Error)
    (iter : Nat → List (String × Nat)) (sortBy : String) (closureGraph : List Storepath) :
    List String × Option Error :=
  if sortBy = "nar-size" then SortedPathsByNarSize closureGraph
  else SortedPathsByPopularity scoreFn iter closureGraph

/-- The `Run` function of `layersReproducibleCmd` from the sorting of the closure to the
call of `nix.NewLayers`, the inputs having been read. An error stands for the exit of the
process with status 1, in which case no layer is produced. -/
def layersReproducible (scoreFn : DirectedGraph → List scored × Option Error)
    (iter : Nat → List (String × Nat)) (prim : DigestPrimitive) (sched : List Nat)
    (sortBy : String) (closureGraph : List Storepath) (maxLayers : Int)
    (parents : List Layer) (rewrites : List RewritePath) (ignore : String)
    (perms : List PermPath) (history : History) : List Layer × Option Error :=
  let sorted := sortStorepaths scoreFn iter sortBy closureGraph
  match sorted.2 with
  | some err => ([], some err)
  | none => NewLayers prim sched sorted.1 maxLayers parents rewrites ignore perms history

/-- The `Run` function of `layersNonReproducibleCmd` from the sorting of the closure to the
call of `nix.NewLayersNonReproducible`. -/
def layersNonReproducible (scoreFn : DirectedGraph → List scored × Option Error)
    (iter : Nat → List (String × Nat)) (prim : DigestPrimitive) (sched : List Nat)
    (sortBy : String) (closureGraph : List Storepath) (maxLayers : Int)
    (tarDirectory : String) (parents : List Layer) (rewrites : List RewritePath)
    (ignore : String) (perms : List PermPath) (history : History) :
    List Layer × Option Error :=
  let sorted := sortStorepaths scoreFn iter sortBy closureGraph
  match sorted.2 with
  | some err => ([], some err)
  | none =>
    NewLayersNonReproducible prim sched sorted.1 maxLayers tarDirectory parents rewrites ignore
      perms history

/-! ## Auxiliary definitions used in the statements -/

/-- The `types.Perm` that `getPaths` builds from a permission rule. -/
def permOfRule (perm : PermPath) : Perm :=
  { Regex := perm.Regex, Mode := perm.Mode, Uid := perm.Uid, Gid := perm.Gid,
    Uname := perm.Uname, Gname := perm.Gname }

/-- The `types.Rewrite` that `getPaths` builds from a rewrite rule. -/
def rewriteOfRule (rewrite : RewritePath) : Rewrite :=
  { Regex := rewrite.Regex, Repl := rewrite.Repl }

/-- The permission overrides carried by a path record, read as a list: a record without
options, or with a nil `Perms` slice, carries none. -/
def permsList (path : Path) : List Perm :=
  match path.Options with
  | none => []
  | some o => o.Perms.getD []

/-- The test applied by `getPaths` to decide whether the store path `p` is kept. -/
def keeps (parents : List Layer) (rewrites : List RewritePath) (exclude : String)
    (permPaths : List PermPath) (p : String) : Bool :=
  decide (p ≠ exclude) && !isPathInLayers parents (resolvePath p rewrites permPaths)

/-- Job `k` of `newLayers` for `numLayers` layers: the element appended to `jobs` at
iteration `i = k`. -/
def jobAt (paths : Paths) (numLayers k : Nat) : layerJob :=
  { index := k,
    layerPaths := slice paths k (if k = numLayers - 1 then paths.length else k + 1) }

/-- The digest primitive selected by `tarDirectory` succeeds on the path list `ps`. -/
def digestOk (prim : DigestPrimitive) (tarDirectory : String) (ps : Paths) : Bool :=
  if tarDirectory = "" then
    match prim.TarPathsSum ps with
    | .ok _ => true
    | .error _ => false
  else
    match prim.TarPathsWrite ps tarDirectory with
    | .ok _ => true
    | .error _ => false

/-- The partition of `paths` into `n` groups prescribed for `newLayers`: one singleton group
for each of the first `n - 1` paths, then one group with all remaining paths. -/
def partitionOf (paths : Paths) (n : Nat) : List Paths :=
  (paths.take (n - 1)).map (fun x => [x]) ++ [paths.drop (n - 1)]

/-- A digest primitive that succeeds on every input; used to run `newLayers` on examples. -/
def samplePrim : DigestPrimitive :=
  { TarPathsSum := fun ps => .ok ("sha256:0", ps.length),
    TarPathsWrite := fun ps dir => .ok (dir, "sha256:0", ps.length) }

/-- A digest primitive that fails on every input. -/
def failingPrim : DigestPrimitive :=
  { TarPathsSum := fun _ => .error { msg := "tar" },
    TarPathsWrite := fun _ _ => .error { msg := "tar" } }

/-- A path record without options. -/
def plainPath (p : String) : Path := { Path := p, Options := none }

/-- Ten resolved paths `p0 .. p9`. -/
def tenPaths : Paths :=
  [plainPath "p0", plainPath "p1", plainPath "p2", plainPath "p3", plainPath "p4",
   plainPath "p5", plainPath "p6", plainPath "p7", plainPath "p8", plainPath "p9"]

/-- A parent layer set with one layer holding the plain record of `b`. -/
def parentWithB : List Layer := [{ zeroLayer with Paths := [plainPath "b"] }]

/-- A parent layer set whose record of `b` carries a rewrite. -/
def parentWithRewrittenB : List Layer :=
  [{ zeroLayer with
      Paths := [{ Path := "b",
                  Options := some { Rewrite := { Regex := "^/nix", Repl := "/opt" },
                                    Perms := none } }] }]

/-- Three rewrite rules, two of them for `a`. -/
def sampleRewrites : List RewritePath :=
  [{ Path := "a", Regex := "r1", Repl := "x" }, { Path := "a", Regex := "r2", Repl := "y" },
   { Path := "b", Regex := "q", Repl := "z" }]

/-- Three permission rules, two of them for `a`. -/
def samplePerms : List PermPath :=
  [{ Path := "a", Regex := ".*", Mode := "0755", Uid := 0, Gid := 0, Uname := "root",
     Gname := "root" },
   { Path := "b", Regex := "bin", Mode := "0555", Uid := 1, Gid := 1, Uname := "u",
     Gname := "g" },
   { Path := "a", Regex := "etc", Mode := "0644", Uid := 2, Gid := 3, Uname := "v",
     Gname := "w" }]

/-- A store path record with only `path` and `narSize` set. -/
def sizedRecord (p : String) (n : Int) : Storepath :=
  { Path := p, References := [], NarSize := n, ClosureSize := 0, NarHash := "" }

/-- The error, if any, with which the digest primitive selected by `tarDirectory` fails on
the path list `ps`. -/
def digestError (prim : DigestPrimitive) (tarDirectory : String) (ps : Paths) : Option Error :=
  if tarDirectory = "" then
    match prim.TarPathsSum ps with
    | .ok _ => none
    | .error e => some e
  else
    match prim.TarPathsWrite ps tarDirectory with
    | .ok _ => none
    | .error e => some e

/-- A digest primitive that fails exactly on path lists with more than one path. -/
def pickyPrim : DigestPrimitive :=
  { TarPathsSum := fun ps =>
      if ps.length ≤ 1 then .ok ("sha256:1", ps.length) else .error { msg := "unreadable" },
    TarPathsWrite := fun ps dir =>
      if ps.length ≤ 1 then .ok (dir, "sha256:1", ps.length)
      else .error { msg := "unreadable" } }

/-- The identifiers of the input in scanning order: each record's path followed by its
references. -/
def scanIds (storepaths : List Storepath) : List String :=
  storepaths.flatMap (fun p => p.Path :: p.References)

/-- The pairs `(path, reference)` of the input, in scanning order. -/
def refPairs (storepaths : List Storepath) : List (String × String) :=
  storepaths.flatMap (fun p => p.References.map (fun r => (p.Path, r)))

/-- The invariant of the loops of `buildGraph`, when the identifiers `S` have been scanned
and the reference pairs `EV` handled: an identifier's id is its position among the keys in
insertion order, the nodes are those ids, the keys are the distinct scanned identifiers in
the order of their first occurrence, and the edges are the handled pairs with two different
ends. -/
structure GraphInv (S : List String) (EV : List (String × String))
    (st : PathMap × DirectedGraph) : Prop where
  ids : ∀ x i, (x, i) ∈ st.1 ↔ (st.1.map Prod.fst)[i]? = some x
  nodes : st.2.nodes = List.range st.1.length
  nodup : (st.1.map Prod.fst).Nodup
  keys : ∀ x, x ∈ st.1.map Prod.fst ↔ x ∈ S
  order : ∀ x y, x ∈ S → y ∈ S →
    (S.indexOf x < S.indexOf y ↔
      (st.1.map Prod.fst).indexOf x < (st.1.map Prod.fst).indexOf y)
  edges : ∀ i j, (i, j) ∈ st.2.edges ↔
    ∃ a b, (a, b) ∈ EV ∧ a ≠ b ∧ (a, i) ∈ st.1 ∧ (b, j) ∈ st.1
  pairs : ∀ a b, (a, b) ∈ EV → a ∈ S ∧ b ∈ S

/-- A store path record with only `path` and `references` set. -/
def refRecord (p : String) (references : List String) : Storepath :=
  { Path := p, References := references, NarSize := 0, ClosureSize := 0, NarHash := "" }

/-- The closure `a → b, c`, `b`, `c → b`. -/
def closureExample : List Storepath :=
  [refRecord "a" ["b", "c"], refRecord "b" [], refRecord "c" ["b"]]

/-- A closure in which `a` refers to itself and twice to `b`, which has no record. -/
def closureWithSelfRef : List Storepath :=
  [refRecord "a" ["a", "b", "b"]]

/-- A record of the closure has path `a` and lists `b` among its references. -/
def refersTo (storepaths : List Storepath) (a b : String) : Prop :=
  ∃ p ∈ storepaths, p.Path = a ∧ b ∈ p.References

/-- The node `v` can be reached from `u` along edges of `edges`, passing only through nodes
of `ws` on the way. -/
inductive Via (edges : List (Nat × Nat)) (ws : List Nat) : Nat → Nat → Prop
  | edge {u v : Nat} : (u, v) ∈ edges → Via edges ws u v
  | step {u w v : Nat} : (u, w) ∈ edges → w ∈ ws → Via edges ws w v → Via edges ws u v

/-- The JSON value `v` has a type that the decoder accepts for the field `f`: a string for
`path` and `narHash`, an array of strings for `references`, an integer that fits 64 bits
for `narSize` and `closureSize`; `null` is accepted everywhere. -/
def wellTyped (f : Field) (v : Json) : Prop :=
  match f, v with
  | _, .null => True
  | .Path, .str _ => True
  | .NarHash, .str _ => True
  | .References, .arr elems => ∀ e ∈ elems, e = Json.null ∨ ∃ x, e = Json.str x
  | .NarSize, .num n => -9223372036854775808 ≤ n ∧ n ≤ 9223372036854775807
  | .ClosureSize, .num n => -9223372036854775808 ≤ n ∧ n ≤ 9223372036854775807
  | _, _ => False

/-- A closure file with one record, which has references and a size but no `path`. -/
def closureWithoutPath : Json :=
  .arr [.obj [("references", .arr [.str "b"]), ("narSize", .num 3)]]

/-- A file system holding `closureWithoutPath` under the name `closure.json`. -/
def sampleFiles (filename : String) : Except Error (Option Json) :=
  if filename = "closure.json" then .ok (some closureWithoutPath)
  else .error { msg := "open: no such file or directory" }

/-! ## Facts about the path option resolver -/

theorem permLoop_eq (p : String) (permPaths : List PermPath) (st : Bool × List Perm) :
    permLoop p permPaths st =
      (st.1 || permPaths.any (fun perm => decide (p = perm.Path)),
        st.2 ++ (permPaths.filter (fun perm => decide (p = perm.Path))).map permOfRule) := by
  induction permPaths generalizing st with
  | nil => simp [permLoop]
  | cons perm rest ih =>
    unfold permLoop at ih ⊢
    rw [List.foldl_cons, ih]
    by_cases h : p = perm.Path
    · simp [h, permOfRule]
    · simp [h]

theorem rewriteLoop_perms (p : String) (rewrites : List RewritePath) (st : Bool × PathOptions) :
    (rewriteLoop p rewrites st).2.Perms = st.2.Perms := by
  induction rewrites generalizing st with
  | nil => simp [rewriteLoop]
  | cons rewrite rest ih =>
    unfold rewriteLoop at ih ⊢
    rw [List.foldl_cons, ih]
    split <;> rfl

theorem rewriteLoop_fst (p : String) (rewrites : List RewritePath) (st : Bool × PathOptions) :
    (rewriteLoop p rewrites st).1 =
      (st.1 || rewrites.any (fun rewrite => decide (p = rewrite.Path))) := by
  induction rewrites generalizing st with
  | nil => simp [rewriteLoop]
  | cons rewrite rest ih =>
    unfold rewriteLoop at ih ⊢
    rw [List.foldl_cons, ih]
    by_cases h : p = rewrite.Path
    · simp [h]
    · simp [h]

theorem rewriteLoop_no_match (p : String) (rewrites : List RewritePath)
    (st : Bool × PathOptions) (h : ∀ q ∈ rewrites, q.Path ≠ p) :
    rewriteLoop p rewrites st = st := by
  induction rewrites generalizing st with
  | nil => simp [rewriteLoop]
  | cons rewrite rest ih =>
    have h1 : ¬ p = rewrite.Path := fun e => h rewrite (List.mem_cons_self _ _) e.symm
    have h2 : ∀ q ∈ rest, q.Path ≠ p := fun q hq => h q (List.mem_cons_of_mem _ hq)
    unfold rewriteLoop at ih ⊢
    rw [List.foldl_cons, if_neg h1]
    exact ih st h2

theorem rewriteLoop_last (p : String) (pre post : List RewritePath) (r : RewritePath)
    (st : Bool × PathOptions) (hr : r.Path = p) (hpost : ∀ q ∈ post, q.Path ≠ p) :
    (rewriteLoop p (pre ++ r :: post) st).2.Rewrite = rewriteOfRule r := by
  have happ : rewriteLoop p (pre ++ r :: post) st
      = rewriteLoop p post (rewriteLoop p [r] (rewriteLoop p pre st)) := by
    simp [rewriteLoop, List.foldl_append]
  rw [happ, rewriteLoop_no_match p post _ hpost]
  simp [rewriteLoop, hr, rewriteOfRule]

theorem resolvePath_path (p : String) (rewrites : List RewritePath)
    (permPaths : List PermPath) : (resolvePath p rewrites permPaths).Path = p := rfl

theorem getPaths_foldl (parents : List Layer) (rewrites : List RewritePath) (exclude : String)
    (permPaths : List PermPath) (storePaths : List String) (acc : Paths) :
    storePaths.foldl
        (fun paths p =>
          let path := resolvePath p rewrites permPaths
          if p = exclude then paths
          else if isPathInLayers parents path then paths
          else paths ++ [path])
        acc
      = acc ++ (storePaths.filter (keeps parents rewrites exclude permPaths)).map
          (fun p => resolvePath p rewrites permPaths) := by
  induction storePaths generalizing acc with
  | nil => simp
  | cons p rest ih =>
    rw [List.foldl_cons, ih]
    by_cases h1 : p = exclude
    · simp [keeps, h1]
    · by_cases h2 : isPathInLayers parents (resolvePath p rewrites permPaths) = true
      · simp [keeps, h1, h2]
      · simp [keeps, h1, h2]

/-- The output of `getPaths` is the resolved records of the kept store paths, in order. -/
theorem getPaths_eq (storePaths : List String) (parents : List Layer)
    (rewrites : List RewritePath) (exclude : String) (permPaths : List PermPath) :
    getPaths storePaths parents rewrites exclude permPaths
      = (storePaths.filter (keeps parents rewrites exclude permPaths)).map
          (fun p => resolvePath p rewrites permPaths) := by
  unfold getPaths
  rw [getPaths_foldl]
  simp

theorem mem_getPaths {storePaths : List String} {parents : List Layer}
    {rewrites : List RewritePath} {exclude : String} {permPaths : List PermPath} {path : Path} :
    path ∈ getPaths storePaths parents rewrites exclude permPaths ↔
      ∃ p ∈ storePaths, p ≠ exclude ∧
        isPathInLayers parents (resolvePath p rewrites permPaths) = false ∧
        resolvePath p rewrites permPaths = path := by
  rw [getPaths_eq]
  simp [keeps, and_assoc]

theorem isPathInLayers_iff (layers : List Layer) (path : Path) :
    isPathInLayers layers path = true ↔ ∃ layer ∈ layers, path ∈ layer.Paths := by
  simp [isPathInLayers]

theorem resolvePath_permsList (p : String) (rewrites : List RewritePath)
    (permPaths : List PermPath) :
    permsList (resolvePath p rewrites permPaths)
      = (permPaths.filter (fun perm => decide (p = perm.Path))).map permOfRule := by
  unfold permsList resolvePath
  simp only [rewriteLoop_fst, rewriteLoop_perms, permLoop_eq, Bool.false_or, List.nil_append]
  by_cases h1 : (permPaths.filter (fun perm => decide (p = perm.Path))).map permOfRule = []
  · rw [h1]
    split
    · rfl
    · next o ho =>
      split at ho
      · cases ho
        simp [rewriteLoop_perms, zeroPathOptions]
      · cases ho
  · have hany : permPaths.any (fun perm => decide (p = perm.Path)) = true := by
      rw [List.any_eq_true]
      rw [List.map_eq_nil_iff, List.filter_eq_nil_iff] at h1
      push_neg at h1
      obtain ⟨a, ha, hpa⟩ := h1
      exact ⟨a, ha, hpa⟩
    simp [hany, h1, rewriteLoop_perms]

theorem resolvePath_rewrite_last (p : String) (pre post : List RewritePath) (r : RewritePath)
    (permPaths : List PermPath) (hr : r.Path = p) (hpost : ∀ q ∈ post, q.Path ≠ p) :
    ∃ o, (resolvePath p (pre ++ r :: post) permPaths).Options = some o ∧
      o.Rewrite = rewriteOfRule r := by
  unfold resolvePath
  simp only [rewriteLoop_fst]
  have hany : (pre ++ r :: post).any (fun rewrite => decide (p = rewrite.Path)) = true := by
    rw [List.any_eq_true]
    exact ⟨r, by simp, by simp [hr]⟩
  rw [hany, Bool.or_true, if_pos rfl]
  exact ⟨_, rfl, rewriteLoop_last p pre post r _ hr hpost⟩

/-! ## Facts about the layer partitioner -/

theorem numLayersOf_eq (totalPaths : Nat) (maxLayers : Int) :
    numLayersOf totalPaths maxLayers = min (max maxLayers 1).toNat totalPaths := by
  unfold numLayersOf
  simp only
  split <;> split <;> omega

theorem numLayersOf_nonpos (totalPaths : Nat) (maxLayers : Int) (h : maxLayers ≤ 0) :
    numLayersOf totalPaths maxLayers = numLayersOf totalPaths 1 := by
  rw [numLayersOf_eq, numLayersOf_eq]
  congr 2
  omega

theorem makeJobs_eq (paths : Paths) (numLayers : Nat) :
    makeJobs paths numLayers = (List.range numLayers).map (jobAt paths numLayers) := rfl

theorem makeJobs_get? (paths : Paths) (numLayers k : Nat) (hk : k < numLayers) :
    (makeJobs paths numLayers).get? k = some (jobAt paths numLayers k) := by
  rw [makeJobs_eq]
  simp [List.getElem?_range hk]

theorem runJob_index (prim : DigestPrimitive) (tarDirectory : String) (history : History)
    (j : layerJob) : (runJob prim tarDirectory history j).index = j.index := by
  unfold runJob
  simp only
  split <;> rfl

/-- The layer of a result carries no path or the paths of its job. -/
theorem runJob_paths (prim : DigestPrimitive) (tarDirectory : String) (history : History)
    (j : layerJob) :
    (runJob prim tarDirectory history j).layer.Paths = [] ∨
      (runJob prim tarDirectory history j).layer.Paths = j.layerPaths := by
  unfold runJob
  simp only
  split
  · left; rfl
  · right; split <;> rfl

/-- A job on which the digest primitive succeeds yields no error and a layer with the
paths of the job. -/
theorem runJob_ok (prim : DigestPrimitive) (tarDirectory : String) (history : History)
    (j : layerJob) (h : digestOk prim tarDirectory j.layerPaths = true) :
    (runJob prim tarDirectory history j).err = none ∧
      (runJob prim tarDirectory history j).layer.Paths = j.layerPaths := by
  unfold digestOk at h
  unfold runJob
  by_cases ht : tarDirectory = ""
  · simp only [ht, if_true] at h ⊢
    cases hs : prim.TarPathsSum j.layerPaths with
    | error e => simp [hs] at h
    | ok v => simp
  · simp only [ht, if_false] at h ⊢
    cases hs : prim.TarPathsWrite j.layerPaths tarDirectory with
    | error e => simp [hs] at h
    | ok v => simp [ht]

/-- Writing `f k` at every index `k` of `ks` in turn: entry `i` ends up as `f i` when `i`
occurs in `ks`, and is untouched otherwise. -/
theorem foldl_set_getElem? {α : Type} (f : Nat → α) (ks : List Nat) (init : List α) (i : Nat)
    (hi : i < init.length) :
    (ks.foldl (fun l k => l.set k (f k)) init)[i]? =
      if i ∈ ks then some (f i) else init[i]? := by
  induction ks generalizing init with
  | nil => simp
  | cons k ks ih =>
    rw [List.foldl_cons, ih (init.set k (f k)) (by simpa using hi)]
    by_cases h1 : i ∈ ks
    · simp [h1]
    · by_cases h2 : i = k
      · subst h2
        simp [h1, hi]
      · have h3 : ¬ k = i := fun e => h2 e.symm
        simp [h1, h2, List.getElem?_set_ne h3]

theorem foldl_set_length {α : Type} (f : Nat → α) (ks : List Nat) (init : List α) :
    (ks.foldl (fun l k => l.set k (f k)) init).length = init.length := by
  induction ks generalizing init with
  | nil => rfl
  | cons k ks ih => rw [List.foldl_cons, ih]; simp

/-- When every index below `n` is written, the outcome is the table of `f`. -/
theorem foldl_set_all {α : Type} (f : Nat → α) (ks : List Nat) (init : List α) (n : Nat)
    (hn : init.length = n) (hks : ∀ i, i < n → i ∈ ks) :
    ks.foldl (fun l k => l.set k (f k)) init = (List.range n).map f := by
  apply List.ext_getElem?
  intro i
  by_cases hi : i < n
  · rw [foldl_set_getElem? f ks init i (by omega)]
    simp [hks i hi, List.getElem?_range hi]
  · have h1 : (ks.foldl (fun l k => l.set k (f k)) init).length ≤ i := by
      rw [foldl_set_length]; omega
    have h2 : ((List.range n).map f).length ≤ i := by simp; omega
    rw [List.getElem?_eq_none h1, List.getElem?_eq_none h2]

/-- The two components of the collecting loop, taken apart: the layers are written by
index, the error is the first one received. -/
theorem collect_foldl (received : List result) (st : List Layer × Option Error) :
    received.foldl
        (fun st r =>
          let firstErr := if r.err ≠ none ∧ st.2 = none then r.err else st.2
          (st.1.set r.index r.layer, firstErr))
        st
      = (received.foldl (fun l r => l.set r.index r.layer) st.1,
          st.2.orElse (fun _ => (received.filterMap (fun r => r.err)).head?)) := by
  induction received generalizing st with
  | nil => cases st with | mk a b => cases b <;> simp [Option.orElse]
  | cons r rest ih =>
    rw [List.foldl_cons, ih]
    cases st with
    | mk a b =>
      cases b with
      | some e => simp [Option.orElse]
      | none =>
        cases hr : r.err with
        | none => simp [Option.orElse, hr]
        | some e => simp [Option.orElse, hr]

/-- With a schedule that is a permutation of the job indices, the received results are the
results of the jobs in schedule order. -/
theorem receivedResults_perm (prim : DigestPrimitive) (sched : List Nat) (tarDirectory : String)
    (history : History) (paths : Paths) (n : Nat) (hs : sched.Perm (List.range n)) :
    receivedResults prim sched tarDirectory history (makeJobs paths n) n
      = sched.map (fun k => runJob prim tarDirectory history (jobAt paths n k)) := by
  have hmem : ∀ k ∈ sched, k < n := fun k hk => List.mem_range.1 (hs.subset hk)
  have h1 : (sched.filterMap fun k =>
        ((makeJobs paths n).get? k).map (runJob prim tarDirectory history))
      = sched.map (fun k => runJob prim tarDirectory history (jobAt paths n k)) := by
    rw [← List.filterMap_eq_map]
    apply List.filterMap_congr
    intro k hk
    rw [makeJobs_get? paths n k (hmem k hk)]
    rfl
  unfold receivedResults
  rw [h1]
  apply List.take_of_length_le
  simp [hs.length_eq]

/-- With a schedule that is a permutation of the job indices, the collecting loop ends with
the layers of the jobs in index order and the first error in schedule order. -/
theorem collectResults_perm (prim : DigestPrimitive) (sched : List Nat) (tarDirectory : String)
    (history : History) (paths : Paths) (n : Nat) (hs : sched.Perm (List.range n)) :
    collectResults n (receivedResults prim sched tarDirectory history (makeJobs paths n) n)
      = ((List.range n).map
            (fun k => (runJob prim tarDirectory history (jobAt paths n k)).layer),
          (sched.filterMap
            (fun k => (runJob prim tarDirectory history (jobAt paths n k)).err)).head?) := by
  unfold collectResults
  rw [collect_foldl, receivedResults_perm prim sched tarDirectory history paths n hs]
  rw [List.foldl_map, List.filterMap_map]
  have hidx : (fun (l : List Layer) (k : Nat) =>
        l.set (runJob prim tarDirectory history (jobAt paths n k)).index
          (runJob prim tarDirectory history (jobAt paths n k)).layer)
      = (fun l k => l.set k (runJob prim tarDirectory history (jobAt paths n k)).layer) := by
    funext l k
    rw [runJob_index]
    rfl
  rw [hidx]
  rw [foldl_set_all _ sched _ n (by simp) (fun i hi => hs.symm.subset (List.mem_range.2 hi))]
  simp [Option.orElse, Function.comp_def]

theorem slice_single (paths : Paths) (i : Nat) (hi : i < paths.length) :
    slice paths i (i + 1) = [paths[i]] := by
  unfold slice
  rw [List.drop_take, List.drop_eq_getElem_cons hi, Nat.add_sub_cancel_left]
  rfl

theorem slice_rest (paths : Paths) (i : Nat) :
    slice paths i paths.length = paths.drop i := by
  unfold slice
  rw [List.take_length]

theorem singletons_eq (paths : Paths) (n m : Nat) (hm : m ≤ paths.length) (hn : m < n) :
    (List.range m).map (fun k => (jobAt paths n k).layerPaths)
      = (paths.take m).map (fun x => [x]) := by
  apply List.ext_getElem
  · simp [hm]
  · intro i h1 h2
    have hi : i < m := by simpa using h1
    have hne : ¬ i = n - 1 := by omega
    simp [jobAt, hne, slice_single paths i (by omega)]

/-- The path lists of the jobs, in index order, are the prescribed partition. -/
theorem jobs_partition (paths : Paths) (n : Nat) (h1 : 1 ≤ n) (h2 : n ≤ paths.length) :
    (List.range n).map (fun k => (jobAt paths n k).layerPaths) = partitionOf paths n := by
  obtain ⟨m, rfl⟩ : ∃ m, n = m + 1 := ⟨n - 1, by omega⟩
  rw [List.range_succ, List.map_append, singletons_eq paths (m + 1) m (by omega) (by omega)]
  simp [partitionOf, jobAt, slice_rest]

theorem mem_partitionOf_of_job (paths : Paths) (n k : Nat) (h1 : k < n)
    (h2 : n ≤ paths.length) : (jobAt paths n k).layerPaths ∈ partitionOf paths n := by
  rw [← jobs_partition paths n (by omega) h2]
  exact List.mem_map.2 ⟨k, List.mem_range.2 h1, rfl⟩

/-- The outcome of `newLayers` on a non-empty list when the schedule is a permutation of
the job indices and the digest primitive succeeds on every group of the partition. -/
theorem newLayers_all_ok (prim : DigestPrimitive) (sched : List Nat) (paths : Paths)
    (tarDirectory : String) (maxLayers : Int) (history : History) (n : Nat)
    (hn : numLayersOf paths.length maxLayers = n) (h1 : 1 ≤ n) (h2 : n ≤ paths.length)
    (hs : sched.Perm (List.range n))
    (hok : ∀ ps ∈ partitionOf paths n, digestOk prim tarDirectory ps = true) :
    (newLayers prim sched paths tarDirectory maxLayers history).2 = none ∧
      (newLayers prim sched paths tarDirectory maxLayers history).1.map (fun l => l.Paths)
        = partitionOf paths n := by
  have hlen : ¬ paths.length = 0 := by omega
  have hjob : ∀ k, k < n →
      (runJob prim tarDirectory history (jobAt paths n k)).err = none ∧
      (runJob prim tarDirectory history (jobAt paths n k)).layer.Paths
        = (jobAt paths n k).layerPaths := fun k hk =>
    runJob_ok prim tarDirectory history _ (hok _ (mem_partitionOf_of_job paths n k hk h2))
  have herr : (sched.filterMap
      (fun k => (runJob prim tarDirectory history (jobAt paths n k)).err)).head? = none := by
    rw [List.head?_eq_none_iff, List.filterMap_eq_nil_iff]
    intro k hk
    exact (hjob k (List.mem_range.1 (hs.subset hk))).1
  have hpaths : ((List.range n).map
        (fun k => (runJob prim tarDirectory history (jobAt paths n k)).layer)).map
        (fun l => l.Paths) = partitionOf paths n := by
    rw [← jobs_partition paths n h1 h2, List.map_map]
    apply List.map_congr_left
    intro k hk
    exact (hjob k (List.mem_range.1 hk)).2
  unfold newLayers
  simp only [hlen, if_false, hn]
  rw [collectResults_perm prim sched tarDirectory history paths n hs]
  simp only [herr, List.nil_append]
  exact ⟨trivial, hpaths⟩

theorem newLayers_nil (prim : DigestPrimitive) (sched : List Nat) (tarDirectory : String)
    (maxLayers : Int) (history : History) :
    newLayers prim sched [] tarDirectory maxLayers history = ([], none) := by
  simp [newLayers]

theorem mem_foldl_set (received : List result) (init : List Layer) (x : Layer)
    (hx : x ∈ received.foldl (fun l r => l.set r.index r.layer) init) :
    x ∈ init ∨ ∃ r ∈ received, x = r.layer := by
  induction received generalizing init with
  | nil => left; simpa using hx
  | cons r rest ih =>
    rw [List.foldl_cons] at hx
    rcases ih _ hx with h | ⟨r', hr', he⟩
    · rcases List.mem_or_eq_of_mem_set h with h' | h'
      · left; exact h'
      · right; exact ⟨r, List.mem_cons_self _ _, h'⟩
    · right; exact ⟨r', List.mem_cons_of_mem _ hr', he⟩

theorem slice_subset {α : Type} (xs : List α) (lo hi : Nat) (x : α) (hx : x ∈ slice xs lo hi) :
    x ∈ xs :=
  List.mem_of_mem_take (List.mem_of_mem_drop hx)

/-- Every path of every layer returned by `newLayers` is one of the resolved paths it was
given, for every schedule and every digest primitive. -/
theorem newLayers_paths_subset (prim : DigestPrimitive) (sched : List Nat) (paths : Paths)
    (tarDirectory : String) (maxLayers : Int) (history : History) (layer : Layer)
    (hl : layer ∈ (newLayers prim sched paths tarDirectory maxLayers history).1)
    (path : Path) (hp : path ∈ layer.Paths) : path ∈ paths := by
  unfold newLayers at hl
  simp only at hl
  split at hl
  · simp at hl
  · split at hl
    · simp at hl
    · rw [List.nil_append] at hl
      unfold collectResults at hl
      rw [collect_foldl] at hl
      rcases mem_foldl_set _ _ _ hl with h | ⟨r, hr, he⟩
      · rw [List.eq_of_mem_replicate h] at hp
        simp [zeroLayer] at hp
      · unfold receivedResults at hr
        have hr' := List.mem_of_mem_take hr
        rw [List.mem_filterMap] at hr'
        obtain ⟨k, _, hk⟩ := hr'
        rw [Option.map_eq_some'] at hk
        obtain ⟨j, hj, hrj⟩ := hk
        have hjm : j ∈ makeJobs paths (numLayersOf paths.length maxLayers) :=
          List.get?_mem hj
        rw [makeJobs_eq, List.mem_map] at hjm
        obtain ⟨i, _, hi⟩ := hjm
        subst he
        subst hrj
        rcases runJob_paths prim tarDirectory history j with h0 | h1
        · rw [h0] at hp; simp at hp
        · rw [h1, ← hi] at hp
          exact slice_subset _ _ _ _ hp

/-! ## Partitioning (`newLayers`) -/

/-- C1: for a non-empty resolved path list and `maxLayers ≥ 1`, when the digest primitive
succeeds on every partition, `newLayers` returns no error and exactly
`n = min maxLayers total` layers in partition index order, whatever the order in which the
results arrive: the path lists of the layers are `[paths[0]], …, [paths[n-2]]` followed by
`paths[n-1 ..]`, so the path counts are `n - 1` ones followed by `total - (n - 1)`. -/
theorem newLayers_partition (prim : DigestPrimitive) (sched : List Nat) (paths : Paths)
    (tarDirectory : String) (maxLayers : Int) (history : History)
    (hne : paths ≠ []) (hmax : 1 ≤ maxLayers)
    (hs : sched.Perm (List.range (min maxLayers.toNat paths.length)))
    (hok : ∀ ps ∈ (paths.take (min maxLayers.toNat paths.length - 1)).map (fun x => [x])
        ++ [paths.drop (min maxLayers.toNat paths.length - 1)],
      digestOk prim tarDirectory ps = true) :
    (newLayers prim sched paths tarDirectory maxLayers history).2 = none ∧
    (newLayers prim sched paths tarDirectory maxLayers history).1.length
      = min maxLayers.toNat paths.length ∧
    (newLayers prim sched paths tarDirectory maxLayers history).1.map (fun l => l.Paths)
      = (paths.take (min maxLayers.toNat paths.length - 1)).map (fun x => [x])
        ++ [paths.drop (min maxLayers.toNat paths.length - 1)] ∧
    (newLayers prim sched paths tarDirectory maxLayers history).1.map (fun l => l.Paths.length)
      = List.replicate (min maxLayers.toNat paths.length - 1) 1
        ++ [paths.length - (min maxLayers.toNat paths.length - 1)] := by
  have hpos : 0 < paths.length := List.length_pos.2 hne
  have hn : numLayersOf paths.length maxLayers = min maxLayers.toNat paths.length := by
    rw [numLayersOf_eq, max_eq_left hmax]
  have h1 : 1 ≤ min maxLayers.toNat paths.length := by
    have : 1 ≤ maxLayers.toNat := by omega
    exact le_min this hpos
  have h2 : min maxLayers.toNat paths.length ≤ paths.length := min_le_right _ _
  obtain ⟨herr, hpaths⟩ := newLayers_all_ok prim sched paths tarDirectory maxLayers history
    _ hn h1 h2 hs hok
  have hlen : (newLayers prim sched paths tarDirectory maxLayers history).1.length
      = min maxLayers.toNat paths.length := by
    have := congrArg List.length hpaths
    simp only [List.length_map, partitionOf, List.length_append, List.length_take,
      List.length_singleton] at this
    omega
  refine ⟨herr, hlen, hpaths, ?_⟩
  have hcount := congrArg (List.map List.length) hpaths
  rw [List.map_map] at hcount
  have hfun : (List.length ∘ fun (l : Layer) => l.Paths) = fun l => l.Paths.length := rfl
  rw [hfun] at hcount
  rw [hcount]
  simp only [partitionOf, List.map_append, List.map_map, List.map_singleton, List.length_drop]
  congr 1
  rw [List.eq_replicate_iff]
  constructor
  · simp only [List.length_map, List.length_take]
    omega
  · intro b hb
    simp only [List.mem_map, Function.comp] at hb
    obtain ⟨x, _, hx⟩ := hb
    simpa using hx.symm

/-- C1, on ten paths with `maxLayers = 3` and results arriving in the order 2, 0, 1: three
layers with path counts `[1, 1, 8]`. -/
theorem newLayers_partition_witness :
    (newLayers samplePrim [2, 0, 1] tenPaths "" 3 zeroHistory).2 = none ∧
    (newLayers samplePrim [2, 0, 1] tenPaths "" 3 zeroHistory).1.length = 3 ∧
    (newLayers samplePrim [2, 0, 1] tenPaths "" 3 zeroHistory).1.map (fun l => l.Paths)
      = [[plainPath "p0"], [plainPath "p1"],
         [plainPath "p2", plainPath "p3", plainPath "p4", plainPath "p5", plainPath "p6",
          plainPath "p7", plainPath "p8", plainPath "p9"]] ∧
    (newLayers samplePrim [2, 0, 1] tenPaths "" 3 zeroHistory).1.map (fun l => l.Paths.length)
      = [1, 1, 8] :=
  newLayers_partition samplePrim [2, 0, 1] tenPaths "" 3 zeroHistory (by decide) (by decide)
    (by decide) (fun _ _ => rfl)

/-- C2: for `maxLayers ≤ 0`, `newLayers` returns what it returns for `maxLayers = 1`, for
every path list, schedule and digest primitive; for a non-empty list on which the digest
primitive succeeds this is no error and a single layer holding the whole list in order. -/
theorem newLayers_nonpos_maxLayers (prim : DigestPrimitive) (sched : List Nat) (paths : Paths)
    (tarDirectory : String) (maxLayers : Int) (history : History) (hmax : maxLayers ≤ 0) :
    newLayers prim sched paths tarDirectory maxLayers history
      = newLayers prim sched paths tarDirectory 1 history ∧
    (paths ≠ [] → sched.Perm (List.range 1) → digestOk prim tarDirectory paths = true →
      (newLayers prim sched paths tarDirectory maxLayers history).2 = none ∧
      (newLayers prim sched paths tarDirectory maxLayers history).1.map (fun l => l.Paths)
        = [paths]) := by
  have heq : newLayers prim sched paths tarDirectory maxLayers history
      = newLayers prim sched paths tarDirectory 1 history := by
    unfold newLayers
    simp only [numLayersOf_nonpos paths.length maxLayers hmax]
  refine ⟨heq, fun hne hs hok => ?_⟩
  have hpos : 0 < paths.length := List.length_pos.2 hne
  have hn : numLayersOf paths.length maxLayers = 1 := by
    rw [numLayersOf_eq]
    have : (max maxLayers 1).toNat = 1 := by omega
    rw [this]
    exact min_eq_left hpos
  have h := newLayers_all_ok prim sched paths tarDirectory maxLayers history 1 hn
    (le_refl 1) hpos hs (by
      intro ps hps
      simp [partitionOf] at hps
      rw [hps]; exact hok)
  simpa [partitionOf] using h

/-- C2, with `maxLayers = -2` on ten paths: one layer with all ten paths. -/
theorem newLayers_nonpos_maxLayers_witness :
    ((-2 : Int) ≤ 0) ∧
    newLayers samplePrim [0] tenPaths "" (-2) zeroHistory
      = newLayers samplePrim [0] tenPaths "" 1 zeroHistory ∧
    (newLayers samplePrim [0] tenPaths "" (-2) zeroHistory).2 = none ∧
    (newLayers samplePrim [0] tenPaths "" (-2) zeroHistory).1.map (fun l => l.Paths)
      = [tenPaths] :=
  ⟨by decide,
    (newLayers_nonpos_maxLayers samplePrim [0] tenPaths "" (-2) zeroHistory (by decide)).1,
    (newLayers_nonpos_maxLayers samplePrim [0] tenPaths "" (-2) zeroHistory (by decide)).2
      (by decide) (by decide) rfl⟩

/-- C3: on the empty resolved path list `newLayers` returns the empty layer list and no
error for every `maxLayers`, `tarDirectory`, `history`, schedule and digest primitive (the
outcome does not depend on the primitive, which is not consulted); hence `NewLayers` and
`NewLayersNonReproducible` return zero layers whenever every store path equals `exclude` or
is already present in a parent layer. -/
theorem newLayers_empty (prim : DigestPrimitive) (sched : List Nat) (tarDirectory : String)
    (maxLayers : Int) (history : History) :
    newLayers prim sched [] tarDirectory maxLayers history = ([], none) ∧
    ∀ (storePaths : List String) (parents : List Layer) (rewrites : List RewritePath)
      (exclude : String) (perms : List PermPath),
      (∀ p ∈ storePaths,
        p = exclude ∨ isPathInLayers parents (resolvePath p rewrites perms) = true) →
      NewLayers prim sched storePaths maxLayers parents rewrites exclude perms history
        = ([], none) ∧
      NewLayersNonReproducible prim sched storePaths maxLayers tarDirectory parents rewrites
        exclude perms history = ([], none) := by
  refine ⟨newLayers_nil _ _ _ _ _, ?_⟩
  intro storePaths parents rewrites exclude perms h
  have hnil : getPaths storePaths parents rewrites exclude perms = [] := by
    rw [getPaths_eq, List.map_eq_nil_iff, List.filter_eq_nil_iff]
    intro p hp
    rcases h p hp with h1 | h1
    · simp [keeps, h1]
    · simp [keeps, h1]
  unfold NewLayers NewLayersNonReproducible
  simp only [hnil]
  exact ⟨newLayers_nil _ _ _ _ _, newLayers_nil _ _ _ _ _⟩

/-- C3, with a digest primitive that fails on every input: store path `a` is excluded and
`b` is already in the parent layer, so no layer and no error come back. -/
theorem newLayers_empty_witness :
    (∀ p ∈ ["a", "b"],
      p = "a" ∨ isPathInLayers [{ zeroLayer with Paths := [plainPath "b"] }]
        (resolvePath p [] []) = true) ∧
    NewLayers failingPrim [] ["a", "b"] 3 [{ zeroLayer with Paths := [plainPath "b"] }] [] "a"
      [] zeroHistory = ([], none) ∧
    NewLayersNonReproducible failingPrim [] ["a", "b"] 3 "/tmp"
      [{ zeroLayer with Paths := [plainPath "b"] }] [] "a" [] zeroHistory = ([], none) :=
  ⟨by decide,
    (newLayers_empty failingPrim [] "/tmp" 3 zeroHistory).2 ["a", "b"]
      [{ zeroLayer with Paths := [plainPath "b"] }] [] "a" [] (by decide)⟩

/-! ## Exclusion and option resolution (`getPaths`) -/

/-- C4: no path record in the output of `getPaths` has an identifier equal to `exclude`, and
hence no path of any layer returned by `NewLayers` or `NewLayersNonReproducible` has. -/
theorem getPaths_never_exclude (storePaths : List String) (parents : List Layer)
    (rewrites : List RewritePath) (exclude : String) (permPaths : List PermPath) :
    (∀ path ∈ getPaths storePaths parents rewrites exclude permPaths, path.Path ≠ exclude) ∧
    ∀ (prim : DigestPrimitive) (sched : List Nat) (maxLayers : Int) (tarDirectory : String)
      (history : History),
      (∀ layer ∈ (NewLayers prim sched storePaths maxLayers parents rewrites exclude
          permPaths history).1, ∀ path ∈ layer.Paths, path.Path ≠ exclude) ∧
      (∀ layer ∈ (NewLayersNonReproducible prim sched storePaths maxLayers tarDirectory
          parents rewrites exclude permPaths history).1,
        ∀ path ∈ layer.Paths, path.Path ≠ exclude) := by
  have h : ∀ path ∈ getPaths storePaths parents rewrites exclude permPaths,
      path.Path ≠ exclude := by
    intro path hpath
    obtain ⟨p, _, hne, _, rfl⟩ := mem_getPaths.1 hpath
    exact hne
  refine ⟨h, fun prim sched maxLayers tarDirectory history => ⟨?_, ?_⟩⟩
  · intro layer hl path hp
    exact h path (newLayers_paths_subset _ _ _ _ _ _ layer hl path hp)
  · intro layer hl path hp
    exact h path (newLayers_paths_subset _ _ _ _ _ _ layer hl path hp)

/-- C4, on the store paths `a, b, c` with `exclude = b`: the kept record of `a` is not the
excluded one. -/
theorem getPaths_never_exclude_witness :
    plainPath "a" ∈ getPaths ["a", "b", "c"] [] [] "b" [] ∧ (plainPath "a").Path ≠ "b" :=
  ⟨by decide, (getPaths_never_exclude ["a", "b", "c"] [] [] "b" []).1 (plainPath "a")
    (by decide)⟩

/-- C5: if the record resolved for the store path `p` is structurally equal to a path record
of some parent layer, that record is not in the output of `getPaths`. -/
theorem getPaths_omits_parent_record (storePaths : List String) (parents : List Layer)
    (rewrites : List RewritePath) (exclude : String) (permPaths : List PermPath) (p : String)
    (layer : Layer) (hlayer : layer ∈ parents)
    (hpath : resolvePath p rewrites permPaths ∈ layer.Paths) :
    resolvePath p rewrites permPaths ∉
      getPaths storePaths parents rewrites exclude permPaths := by
  intro hmem
  obtain ⟨q, _, _, hnot, hq⟩ := mem_getPaths.1 hmem
  have hpq : q = p := by
    have := congrArg Path.Path hq
    simpa [resolvePath_path] using this
  subst hpq
  have hin : isPathInLayers parents (resolvePath q rewrites permPaths) = true :=
    (isPathInLayers_iff _ _).2 ⟨layer, hlayer, hpath⟩
  rw [hin] at hnot
  cases hnot

/-- C5, with the plain record of `b` in a parent layer: `b` is dropped from `a, b, c`. -/
theorem getPaths_omits_parent_record_witness :
    resolvePath "b" [] [] ∉ getPaths ["a", "b", "c"] parentWithB [] "" [] :=
  getPaths_omits_parent_record ["a", "b", "c"] parentWithB [] "" [] "b"
    { zeroLayer with Paths := [plainPath "b"] } (by decide) (by decide)

/-- C6: for a store path `p` of the input other than `exclude`, if every parent record with
identifier `p` has options different from those resolved for `p`, the resolved record of `p`
is in the output of `getPaths`. -/
theorem getPaths_keeps_on_different_options (storePaths : List String) (parents : List Layer)
    (rewrites : List RewritePath) (exclude : String) (permPaths : List PermPath) (p : String)
    (hp : p ∈ storePaths) (hne : p ≠ exclude)
    (hopts : ∀ layer ∈ parents, ∀ q ∈ layer.Paths, q.Path = p →
      q.Options ≠ (resolvePath p rewrites permPaths).Options) :
    resolvePath p rewrites permPaths ∈
      getPaths storePaths parents rewrites exclude permPaths := by
  refine mem_getPaths.2 ⟨p, hp, hne, ?_, rfl⟩
  rw [Bool.eq_false_iff]
  intro hin
  obtain ⟨layer, hlayer, hmem⟩ := (isPathInLayers_iff _ _).1 hin
  exact hopts layer hlayer _ hmem rfl rfl

/-- C6, with a parent record of `b` that carries a rewrite while the current build resolves
no options for `b`: `b` is kept. -/
theorem getPaths_keeps_on_different_options_witness :
    plainPath "b" ∈ getPaths ["a", "b", "c"] parentWithRewrittenB [] "c" [] :=
  getPaths_keeps_on_different_options ["a", "b", "c"] parentWithRewrittenB [] "c" [] "b"
    (by decide) (by decide) (by decide)

/-- C7: for a record kept by `getPaths`, when the rewrite rule list contains a rule for the
record's identifier, the record has options whose rewrite is exactly the `regex` and `repl`
of the last such rule; the rules before it (`pre`, arbitrary) do not affect it. -/
theorem getPaths_last_rewrite_wins (storePaths : List String) (parents : List Layer)
    (exclude : String) (permPaths : List PermPath) (pre post : List RewritePath)
    (r : RewritePath) (path : Path)
    (hpath : path ∈ getPaths storePaths parents (pre ++ r :: post) exclude permPaths)
    (hr : r.Path = path.Path) (hpost : ∀ q ∈ post, q.Path ≠ path.Path) :
    ∃ o, path.Options = some o ∧ o.Rewrite = { Regex := r.Regex, Repl := r.Repl } := by
  obtain ⟨p, _, _, _, rfl⟩ := mem_getPaths.1 hpath
  exact resolvePath_rewrite_last p pre post r permPaths hr hpost

/-- C7, with the rules `a ↦ (r1, x)`, `a ↦ (r2, y)`, `b ↦ (q, z)`: the record of `a`
carries `(r2, y)`. -/
theorem getPaths_last_rewrite_wins_witness :
    ∃ o, (resolvePath "a" sampleRewrites []).Options = some o ∧
      o.Rewrite = { Regex := "r2", Repl := "y" } :=
  getPaths_last_rewrite_wins ["a", "b"] [] "" [] [{ Path := "a", Regex := "r1", Repl := "x" }]
    [{ Path := "b", Regex := "q", Repl := "z" }] { Path := "a", Regex := "r2", Repl := "y" }
    (resolvePath "a" sampleRewrites []) (by decide) (by decide) (by decide)

/-- C8: for a record kept by `getPaths`, its permission overrides are exactly the rules of
the permission rule list whose `path` equals the record's identifier, in rule order, each
with the rule's `regex`, `mode`, `uid`, `gid`, `uname` and `gname`. -/
theorem getPaths_perms_exact (storePaths : List String) (parents : List Layer)
    (rewrites : List RewritePath) (exclude : String) (permPaths : List PermPath) (path : Path)
    (hpath : path ∈ getPaths storePaths parents rewrites exclude permPaths) :
    permsList path
      = (permPaths.filter (fun perm => decide (perm.Path = path.Path))).map
          (fun perm => { Regex := perm.Regex, Mode := perm.Mode, Uid := perm.Uid,
                         Gid := perm.Gid, Uname := perm.Uname, Gname := perm.Gname }) := by
  obtain ⟨p, _, _, _, rfl⟩ := mem_getPaths.1 hpath
  rw [resolvePath_permsList, resolvePath_path]
  have hf : (fun (perm : PermPath) => decide (p = perm.Path))
      = (fun perm => decide (perm.Path = p)) := by
    funext perm
    simp [eq_comm]
  rw [hf]
  rfl

/-- C8, with two rules for `a` around one for `b`: the record of `a` carries the two rules
of `a`, in rule order. -/
theorem getPaths_perms_exact_witness :
    permsList (resolvePath "a" [] samplePerms)
      = [{ Regex := ".*", Mode := "0755", Uid := 0, Gid := 0, Uname := "root",
           Gname := "root" },
         { Regex := "etc", Mode := "0644", Uid := 2, Gid := 3, Uname := "v", Gname := "w" }] :=
  getPaths_perms_exact ["a", "b"] [] [] "" samplePerms (resolvePath "a" [] samplePerms)
    (by decide)

/-! ## Facts about the size sorter -/

theorem sink_perm {α : Type} (less : α → α → Bool) (x : α) (rev : List α) :
    (sink less x rev).Perm (x :: rev) := by
  induction rev with
  | nil => exact List.Perm.refl _
  | cons y rest ih =>
    unfold sink
    split
    · exact (ih.cons y).trans (List.Perm.swap x y rest)
    · exact List.Perm.refl _

theorem sink_sorted {α : Type} (less : α → α → Bool)
    (hasym : ∀ a b, less a b = true → less b a = false)
    (htrans : ∀ a b c, less a b = false → less b c = false → less a c = false)
    (x : α) (rev : List α) (h : rev.Pairwise (fun a b => less a b = false)) :
    (sink less x rev).Pairwise (fun a b => less a b = false) := by
  induction rev with
  | nil => simp [sink]
  | cons y rest ih =>
    rw [List.pairwise_cons] at h
    unfold sink
    by_cases hxy : less x y = true
    · rw [if_pos hxy, List.pairwise_cons]
      refine ⟨?_, ih h.2⟩
      intro z hz
      rcases List.mem_cons.1 ((sink_perm less x rest).subset hz) with hzx | hzr
      · rw [hzx]; exact hasym x y hxy
      · exact h.1 z hzr
    · rw [if_neg hxy]
      have hxy' : less x y = false := by simpa using hxy
      rw [List.pairwise_cons, List.pairwise_cons]
      refine ⟨?_, h.1, h.2⟩
      intro z hz
      rcases List.mem_cons.1 hz with hzy | hzr
      · rw [hzy]; exact hxy'
      · exact htrans x y z hxy' (h.1 z hzr)

theorem foldl_sink_perm {α : Type} (less : α → α → Bool) (xs rev : List α) :
    (xs.foldl (fun rev x => sink less x rev) rev).Perm (xs.reverse ++ rev) := by
  induction xs generalizing rev with
  | nil => exact List.Perm.refl _
  | cons x rest ih =>
    rw [List.foldl_cons, List.reverse_cons, List.append_assoc]
    exact (ih _).trans ((sink_perm less x rev).append_left _)

theorem foldl_sink_sorted {α : Type} (less : α → α → Bool)
    (hasym : ∀ a b, less a b = true → less b a = false)
    (htrans : ∀ a b c, less a b = false → less b c = false → less a c = false)
    (xs rev : List α) (h : rev.Pairwise (fun a b => less a b = false)) :
    (xs.foldl (fun rev x => sink less x rev) rev).Pairwise (fun a b => less a b = false) := by
  induction xs generalizing rev with
  | nil => exact h
  | cons x rest ih =>
    rw [List.foldl_cons]
    exact ih _ (sink_sorted less hasym htrans x rev h)

/-- The outcome of `sortSlice` is a rearrangement of its input. -/
theorem sortSlice_perm {α : Type} (less : α → α → Bool) (xs : List α) :
    (sortSlice less xs).Perm xs := by
  unfold sortSlice
  refine (List.reverse_perm _).trans ((foldl_sink_perm less xs []).trans ?_)
  rw [List.append_nil]
  exact List.reverse_perm _

/-- The outcome of `sortSlice` is sorted: no later element is `less` than an earlier one. -/
theorem sortSlice_sorted {α : Type} (less : α → α → Bool)
    (hasym : ∀ a b, less a b = true → less b a = false)
    (htrans : ∀ a b c, less a b = false → less b c = false → less a c = false)
    (xs : List α) : (sortSlice less xs).Pairwise (fun a b => less b a = false) := by
  unfold sortSlice
  rw [List.pairwise_reverse]
  exact foldl_sink_sorted less hasym htrans xs [] List.Pairwise.nil

/-- What `sizedLess b a = false` says: `a` may stand before `b`. -/
theorem sizedLess_false_iff (a b : sizedPath) :
    sizedLess b a = false ↔ b.size < a.size ∨ (a.size = b.size ∧ a.path ≤ b.path) := by
  unfold sizedLess
  by_cases h : b.size = a.size
  · rw [if_pos h, decide_eq_false_iff_not, ← String.lt_iff_toList_lt, not_lt]
    constructor
    · intro hle; exact Or.inr ⟨h.symm, hle⟩
    · rintro (hlt | ⟨_, hle⟩)
      · omega
      · exact hle
  · rw [if_neg h, decide_eq_false_iff_not]
    constructor
    · intro hlt; left; omega
    · rintro (hlt | ⟨he, _⟩)
      · omega
      · exact absurd he.symm h

theorem sizedLess_asymm (a b : sizedPath) (h : sizedLess a b = true) :
    sizedLess b a = false := by
  rw [sizedLess_false_iff]
  by_contra hc
  have hba : sizedLess a b = false := by
    rw [sizedLess_false_iff]
    rcases lt_trichotomy a.size b.size with h1 | h1 | h1
    · exact Or.inl h1
    · right
      refine ⟨h1.symm, ?_⟩
      rcases le_total a.path b.path with h2 | h2
      · exact absurd (Or.inr ⟨h1, h2⟩) hc
      · exact h2
    · exact absurd (Or.inl h1) hc
  rw [hba] at h
  cases h

theorem sizedLess_trans (a b c : sizedPath) (h1 : sizedLess a b = false)
    (h2 : sizedLess b c = false) : sizedLess a c = false := by
  rw [sizedLess_false_iff] at h1 h2 ⊢
  rcases h1 with h1 | ⟨h1, h1'⟩ <;> rcases h2 with h2 | ⟨h2, h2'⟩
  · left; omega
  · left; omega
  · left; omega
  · right; exact ⟨by omega, le_trans h2' h1'⟩

theorem sizedLess_antisymm (a b : sizedPath) (h1 : sizedLess b a = false)
    (h2 : sizedLess a b = false) : a = b := by
  rw [sizedLess_false_iff] at h1 h2
  rcases h1 with h1 | ⟨h1, h1'⟩ <;> rcases h2 with h2 | ⟨h2, h2'⟩
  · omega
  · omega
  · omega
  · cases a; cases b
    simp only at h1 h1' h2'
    simp [h1, le_antisymm h1' h2']

theorem sortedSized_perm (storepaths : List Storepath) :
    (sortedSized storepaths).Perm
      (storepaths.map fun sp => { path := sp.Path, size := sp.NarSize }) :=
  sortSlice_perm _ _

theorem sortedSized_sorted (storepaths : List Storepath) :
    (sortedSized storepaths).Pairwise (fun a b => sizedLess b a = false) :=
  sortSlice_sorted sizedLess sizedLess_asymm sizedLess_trans _

/-- Any sorted rearrangement of the `sized` slice is the one computed by `sortSlice`: for
this comparison the sorting algorithm behind `sort.Slice` cannot be observed. -/
theorem sortedSized_unique (storepaths : List Storepath) (l : List sizedPath)
    (hperm : l.Perm (storepaths.map fun sp => { path := sp.Path, size := sp.NarSize }))
    (hsorted : l.Pairwise (fun a b => sizedLess b a = false)) :
    l = sortedSized storepaths := by
  haveI : IsAntisymm sizedPath (fun a b => sizedLess b a = false) :=
    ⟨fun a b h1 h2 => sizedLess_antisymm a b h1 h2⟩
  exact List.eq_of_perm_of_sorted (hperm.trans (sortedSized_perm storepaths).symm) hsorted
    (sortedSized_sorted storepaths)

/-! ## Size order (`SortedPathsByNarSize`) -/

/-- C9: the output of `SortedPathsByNarSize` lists the paths of the records in an order
`sortedSized` (a rearrangement of the input's `(path, narSize)` pairs) in which the sizes
descend and in which two adjacent entries of equal size have their paths in ascending
lexicographic order; no error is returned. -/
theorem SortedPathsByNarSize_ordered (storepaths : List Storepath) :
    SortedPathsByNarSize storepaths = ((sortedSized storepaths).map (fun s => s.path), none) ∧
    (sortedSized storepaths).Perm
      (storepaths.map fun sp => { path := sp.Path, size := sp.NarSize }) ∧
    (sortedSized storepaths).Pairwise (fun a b => b.size ≤ a.size) ∧
    (sortedSized storepaths).Chain' (fun a b => a.size = b.size → a.path ≤ b.path) := by
  refine ⟨rfl, sortedSized_perm storepaths, ?_, ?_⟩
  · refine (sortedSized_sorted storepaths).imp ?_
    intro a b h
    rcases (sizedLess_false_iff a b).1 h with h1 | ⟨h1, _⟩ <;> omega
  · refine List.Pairwise.chain' ((sortedSized_sorted storepaths).imp ?_)
    intro a b h he
    rcases (sizedLess_false_iff a b).1 h with h1 | ⟨_, h1⟩
    · omega
    · exact h1

/-- C10: on two lists of store path records that are permutations of each other,
`SortedPathsByNarSize` returns the same output. -/
theorem SortedPathsByNarSize_perm_invariant (l₁ l₂ : List Storepath) (h : l₁.Perm l₂) :
    SortedPathsByNarSize l₁ = SortedPathsByNarSize l₂ := by
  have hs : sortedSized l₁ = sortedSized l₂ :=
    sortedSized_unique l₂ (sortedSized l₁)
      ((sortedSized_perm l₁).trans (h.map _)) (sortedSized_sorted l₁)
  unfold SortedPathsByNarSize
  rw [hs]

/-- C10, on five records with repeated sizes and a repeated record, in two input orders:
the output is `c, a, a, b, a` both times. -/
theorem SortedPathsByNarSize_perm_invariant_witness :
    ([sizedRecord "b" 5, sizedRecord "a" 5, sizedRecord "c" 9, sizedRecord "a" 3,
        sizedRecord "a" 5].Perm
      [sizedRecord "a" 3, sizedRecord "a" 5, sizedRecord "a" 5, sizedRecord "c" 9,
        sizedRecord "b" 5]) ∧
    SortedPathsByNarSize [sizedRecord "b" 5, sizedRecord "a" 5, sizedRecord "c" 9,
        sizedRecord "a" 3, sizedRecord "a" 5]
      = SortedPathsByNarSize [sizedRecord "a" 3, sizedRecord "a" 5, sizedRecord "a" 5,
        sizedRecord "c" 9, sizedRecord "b" 5] ∧
    SortedPathsByNarSize [sizedRecord "a" 3, sizedRecord "a" 5, sizedRecord "a" 5,
        sizedRecord "c" 9, sizedRecord "b" 5] = (["c", "a", "a", "b", "a"], none) :=
  ⟨by decide,
    SortedPathsByNarSize_perm_invariant _ _ (by decide),
    by decide⟩

/-! ## Errors and layer fields (`newLayers`) -/

theorem runJob_err (prim : DigestPrimitive) (tarDirectory : String) (history : History)
    (j : layerJob) :
    (runJob prim tarDirectory history j).err = digestError prim tarDirectory j.layerPaths := by
  unfold digestError runJob
  by_cases ht : tarDirectory = ""
  · simp only [ht, if_true]
    cases hs : prim.TarPathsSum j.layerPaths <;> simp
  · simp only [ht, if_false]
    cases hs : prim.TarPathsWrite j.layerPaths tarDirectory <;> simp

theorem digestOk_eq_false_iff (prim : DigestPrimitive) (tarDirectory : String) (ps : Paths) :
    digestOk prim tarDirectory ps = false ↔ digestError prim tarDirectory ps ≠ none := by
  unfold digestOk digestError
  by_cases ht : tarDirectory = ""
  · simp only [ht, if_true]
    cases hs : prim.TarPathsSum ps <;> simp
  · simp only [ht, if_false]
    cases hs : prim.TarPathsWrite ps tarDirectory <;> simp

/-- The fields of the layer built by a job on which the digest primitive succeeds. -/
theorem runJob_fields (prim : DigestPrimitive) (tarDirectory : String) (history : History)
    (j : layerJob) (h : (runJob prim tarDirectory history j).err = none) :
    (runJob prim tarDirectory history j).layer.DiffIDs
      = (runJob prim tarDirectory history j).layer.Digest ∧
    (runJob prim tarDirectory history j).layer.MediaType = MediaTypeImageLayer ∧
    (runJob prim tarDirectory history j).layer.History = history ∧
    (tarDirectory = "" →
      prim.TarPathsSum (runJob prim tarDirectory history j).layer.Paths
        = .ok ((runJob prim tarDirectory history j).layer.Digest,
            (runJob prim tarDirectory history j).layer.Size) ∧
      (runJob prim tarDirectory history j).layer.LayerPath = "") ∧
    (tarDirectory ≠ "" →
      prim.TarPathsWrite (runJob prim tarDirectory history j).layer.Paths tarDirectory
        = .ok ((runJob prim tarDirectory history j).layer.LayerPath,
            (runJob prim tarDirectory history j).layer.Digest,
            (runJob prim tarDirectory history j).layer.Size)) := by
  unfold runJob at h ⊢
  by_cases ht : tarDirectory = ""
  · simp only [ht, if_true] at h ⊢
    cases hs : prim.TarPathsSum j.layerPaths with
    | error e => simp [hs] at h
    | ok v => simp [hs]
  · simp only [ht, if_false] at h ⊢
    cases hs : prim.TarPathsWrite j.layerPaths tarDirectory with
    | error e => simp [hs] at h
    | ok v => simp [ht, hs]

/-- The outcome of `newLayers` on a non-empty list when the schedule is a permutation of the
job indices: the first error in schedule order and no layer, or else the layers of the jobs
in index order. -/
theorem newLayers_perm_eq (prim : DigestPrimitive) (sched : List Nat) (paths : Paths)
    (tarDirectory : String) (maxLayers : Int) (history : History) (hne : paths ≠ [])
    (hs : sched.Perm (List.range (numLayersOf paths.length maxLayers))) :
    newLayers prim sched paths tarDirectory maxLayers history =
      match (sched.filterMap (fun k => (runJob prim tarDirectory history
          (jobAt paths (numLayersOf paths.length maxLayers) k)).err)).head? with
      | some firstErr => ([], some firstErr)
      | none =>
        ((List.range (numLayersOf paths.length maxLayers)).map
          (fun k => (runJob prim tarDirectory history
            (jobAt paths (numLayersOf paths.length maxLayers) k)).layer), none) := by
  have hlen : ¬ paths.length = 0 := by
    intro h0
    exact hne (List.length_eq_zero.1 h0)
  unfold newLayers
  simp only [hlen, if_false]
  rw [collectResults_perm prim sched tarDirectory history paths _ hs]
  simp only [List.nil_append]

theorem numLayersOf_bounds (totalPaths : Nat) (maxLayers : Int) (h : 0 < totalPaths) :
    1 ≤ numLayersOf totalPaths maxLayers ∧ numLayersOf totalPaths maxLayers ≤ totalPaths := by
  rw [numLayersOf_eq]
  have : 1 ≤ (max maxLayers 1).toNat := by omega
  exact ⟨le_min this h, min_le_right _ _⟩

/-- C13: on a non-empty resolved path list, whatever the order in which the results arrive,
`newLayers` returns an error exactly when the digest primitive fails on at least one group
of the partition; the error returned is then the error of one of the failing groups and the
returned layer list is empty. -/
theorem newLayers_error_iff (prim : DigestPrimitive) (sched : List Nat) (paths : Paths)
    (tarDirectory : String) (maxLayers : Int) (history : History) (hne : paths ≠ [])
    (hs : sched.Perm (List.range (min (max maxLayers 1).toNat paths.length))) :
    ((newLayers prim sched paths tarDirectory maxLayers history).2 ≠ none ↔
      ∃ ps ∈ partitionOf paths (min (max maxLayers 1).toNat paths.length),
        digestError prim tarDirectory ps ≠ none) ∧
    (∀ e, (newLayers prim sched paths tarDirectory maxLayers history).2 = some e →
      (newLayers prim sched paths tarDirectory maxLayers history).1 = [] ∧
      ∃ ps ∈ partitionOf paths (min (max maxLayers 1).toNat paths.length),
        digestError prim tarDirectory ps = some e) := by
  rw [← numLayersOf_eq] at hs ⊢
  have hpos : 0 < paths.length := List.length_pos.2 hne
  obtain ⟨h1, h2⟩ := numLayersOf_bounds paths.length maxLayers hpos
  have hsome : ∀ e, (newLayers prim sched paths tarDirectory maxLayers history).2 = some e →
      (newLayers prim sched paths tarDirectory maxLayers history).1 = [] ∧
      ∃ ps ∈ partitionOf paths (numLayersOf paths.length maxLayers),
        digestError prim tarDirectory ps = some e := by
    intro e he
    rw [newLayers_perm_eq prim sched paths tarDirectory maxLayers history hne hs] at he ⊢
    cases hh : (sched.filterMap (fun k => (runJob prim tarDirectory history
        (jobAt paths (numLayersOf paths.length maxLayers) k)).err)).head? with
    | none => rw [hh] at he; cases he
    | some e' =>
      rw [hh] at he
      simp only [Option.some.injEq] at he
      subst he
      refine ⟨rfl, ?_⟩
      have hmem := List.mem_of_mem_head? hh
      rw [List.mem_filterMap] at hmem
      obtain ⟨k, hk, hke⟩ := hmem
      have hkn : k < numLayersOf paths.length maxLayers := List.mem_range.1 (hs.subset hk)
      exact ⟨_, mem_partitionOf_of_job paths _ k hkn h2, by rw [← runJob_err]; exact hke⟩
  refine ⟨⟨?_, ?_⟩, hsome⟩
  · intro hne'
    cases he : (newLayers prim sched paths tarDirectory maxLayers history).2 with
    | none => exact absurd he hne'
    | some e =>
      obtain ⟨_, ps, hps, hpe⟩ := hsome e he
      exact ⟨ps, hps, by rw [hpe]; simp⟩
  · rintro ⟨ps, hps, hpe⟩
    rw [← jobs_partition paths _ h1 h2, List.mem_map] at hps
    obtain ⟨k, hk, rfl⟩ := hps
    have hks : k ∈ sched := hs.symm.subset hk
    rw [newLayers_perm_eq prim sched paths tarDirectory maxLayers history hne hs]
    cases hh : (sched.filterMap (fun k => (runJob prim tarDirectory history
        (jobAt paths (numLayersOf paths.length maxLayers) k)).err)).head? with
    | some e' => simp
    | none =>
      exfalso
      rw [List.head?_eq_none_iff, List.filterMap_eq_nil_iff] at hh
      have := hh k hks
      rw [runJob_err] at this
      exact hpe this

/-- C13, on ten paths with `maxLayers = 3` and a digest primitive that fails on groups of
more than one path: the last group fails, so the error comes back with no layer. -/
theorem newLayers_error_iff_witness :
    newLayers pickyPrim [2, 0, 1] tenPaths "" 3 zeroHistory
      = ([], some { msg := "unreadable" }) ∧
    ((newLayers pickyPrim [2, 0, 1] tenPaths "" 3 zeroHistory).2 ≠ none ↔
      ∃ ps ∈ partitionOf tenPaths 3, digestError pickyPrim "" ps ≠ none) ∧
    (∀ e, (newLayers pickyPrim [2, 0, 1] tenPaths "" 3 zeroHistory).2 = some e →
      (newLayers pickyPrim [2, 0, 1] tenPaths "" 3 zeroHistory).1 = [] ∧
      ∃ ps ∈ partitionOf tenPaths 3, digestError pickyPrim "" ps = some e) :=
  ⟨by decide,
    newLayers_error_iff pickyPrim [2, 0, 1] tenPaths "" 3 zeroHistory (by decide) (by decide)⟩

/-- C16: with results arriving in any order, every layer returned by `newLayers` has the
digest and size that the digest primitive returns for exactly the layer's path list,
`diffIDs` equal to `digest`, the OCI image layer media type and the `history` argument; its
`layerPath` is the location returned by `TarPathsWrite` when `tarDirectory` is non-empty and
is empty when `tarDirectory` is the empty string. -/
theorem newLayers_layer_fields (prim : DigestPrimitive) (sched : List Nat) (paths : Paths)
    (tarDirectory : String) (maxLayers : Int) (history : History)
    (hs : sched.Perm (List.range (min (max maxLayers 1).toNat paths.length)))
    (layer : Layer)
    (hl : layer ∈ (newLayers prim sched paths tarDirectory maxLayers history).1) :
    layer.DiffIDs = layer.Digest ∧
    layer.MediaType = MediaTypeImageLayer ∧
    layer.History = history ∧
    (tarDirectory = "" →
      prim.TarPathsSum layer.Paths = .ok (layer.Digest, layer.Size) ∧ layer.LayerPath = "") ∧
    (tarDirectory ≠ "" →
      prim.TarPathsWrite layer.Paths tarDirectory
        = .ok (layer.LayerPath, layer.Digest, layer.Size)) := by
  rw [← numLayersOf_eq] at hs
  by_cases hne : paths = []
  · rw [hne, newLayers_nil] at hl
    cases hl
  · rw [newLayers_perm_eq prim sched paths tarDirectory maxLayers history hne hs] at hl
    cases hh : (sched.filterMap (fun k => (runJob prim tarDirectory history
        (jobAt paths (numLayersOf paths.length maxLayers) k)).err)).head? with
    | some e' => rw [hh] at hl; cases hl
    | none =>
      rw [hh] at hl
      simp only [List.mem_map, List.mem_range] at hl
      obtain ⟨k, hk, rfl⟩ := hl
      rw [List.head?_eq_none_iff, List.filterMap_eq_nil_iff] at hh
      exact runJob_fields prim tarDirectory history _
        (hh k (hs.symm.subset (List.mem_range.2 hk)))

/-- C16, for the first of the three layers written under `/tmp/layers`. -/
theorem newLayers_layer_fields_witness :
    (newLayers samplePrim [2, 0, 1] tenPaths "/tmp/layers" 3 zeroHistory).1.head? =
      some { Digest := "sha256:0", Size := 1, DiffIDs := "sha256:0",
             Paths := [plainPath "p0"],
             MediaType := "application/vnd.oci.image.layer.v1.tar",
             LayerPath := "/tmp/layers", History := zeroHistory } ∧
    samplePrim.TarPathsWrite [plainPath "p0"] "/tmp/layers"
      = .ok ("/tmp/layers", "sha256:0", 1) :=
  ⟨by decide,
    (newLayers_layer_fields samplePrim [2, 0, 1] tenPaths "/tmp/layers" 3 zeroHistory
      (by decide)
      { Digest := "sha256:0", Size := 1, DiffIDs := "sha256:0", Paths := [plainPath "p0"],
        MediaType := "application/vnd.oci.image.layer.v1.tar",
        LayerPath := "/tmp/layers", History := zeroHistory }
      (by decide)).2.2.2.2 (by decide)⟩

/-! ## Presence of options, kept identifiers, size sort as a permutation -/

theorem any_path_eq {α : Type} (f : α → String) (l : List α) (p : String) :
    l.any (fun x => decide (p = f x)) = true ↔ ∃ x ∈ l, f x = p := by
  rw [List.any_eq_true]
  constructor
  · rintro ⟨x, hx, he⟩
    exact ⟨x, hx, (of_decide_eq_true he).symm⟩
  · rintro ⟨x, hx, he⟩
    exact ⟨x, hx, decide_eq_true he.symm⟩

theorem resolvePath_options_isSome (p : String) (rewrites : List RewritePath)
    (permPaths : List PermPath) :
    (resolvePath p rewrites permPaths).Options.isSome =
      (permPaths.any (fun perm => decide (p = perm.Path)) ||
        rewrites.any (fun rewrite => decide (p = rewrite.Path))) := by
  unfold resolvePath
  simp only [rewriteLoop_fst, permLoop_eq, Bool.false_or]
  cases h : (permPaths.any (fun perm => decide (p = perm.Path)) ||
      rewrites.any (fun rewrite => decide (p = rewrite.Path))) <;> simp

/-- C18: a record kept by `getPaths` carries a `PathOptions` record if and only if at least
one permission rule or at least one rewrite rule has a `path` equal to the record's
identifier; when no rule matches, the options are absent (nil). -/
theorem getPaths_options_iff (storePaths : List String) (parents : List Layer)
    (rewrites : List RewritePath) (exclude : String) (permPaths : List PermPath) (path : Path)
    (hpath : path ∈ getPaths storePaths parents rewrites exclude permPaths) :
    ((∃ o, path.Options = some o) ↔
      (∃ perm ∈ permPaths, perm.Path = path.Path) ∨
        (∃ rewrite ∈ rewrites, rewrite.Path = path.Path)) ∧
    (path.Options = none ↔
      (∀ perm ∈ permPaths, perm.Path ≠ path.Path) ∧
        (∀ rewrite ∈ rewrites, rewrite.Path ≠ path.Path)) := by
  obtain ⟨p, _, _, _, rfl⟩ := mem_getPaths.1 hpath
  have h := resolvePath_options_isSome p rewrites permPaths
  rw [resolvePath_path]
  have hiff : (resolvePath p rewrites permPaths).Options.isSome = true ↔
      (∃ perm ∈ permPaths, perm.Path = p) ∨ (∃ rewrite ∈ rewrites, rewrite.Path = p) := by
    rw [h, Bool.or_eq_true, any_path_eq, any_path_eq]
  constructor
  · rw [← Option.isSome_iff_exists]
    exact hiff
  · rw [← Option.not_isSome_iff_eq_none, hiff]
    constructor
    · intro hno
      exact ⟨fun perm hp he => hno (Or.inl ⟨perm, hp, he⟩),
        fun rewrite hr he => hno (Or.inr ⟨rewrite, hr, he⟩)⟩
    · rintro ⟨h1, h2⟩ (⟨perm, hp, he⟩ | ⟨rewrite, hr, he⟩)
      · exact h1 perm hp he
      · exact h2 rewrite hr he

/-- C18, with a rewrite rule for `a` and no rule for `c`: the record of `a` has options, the
record of `c` has none. -/
theorem getPaths_options_iff_witness :
    (∃ o, (resolvePath "a" sampleRewrites samplePerms).Options = some o) ∧
    (resolvePath "c" sampleRewrites samplePerms).Options = none :=
  ⟨((getPaths_options_iff ["a", "c"] [] sampleRewrites "" samplePerms
      (resolvePath "a" sampleRewrites samplePerms) (by decide)).1).2
      (Or.inl ⟨_, List.mem_cons_self _ _, rfl⟩),
    by decide⟩

/-- C19: the identifiers of the output of `getPaths`, in order, are the input store path
list from which exactly the entries are removed that equal `exclude` or whose resolved
record is equal to a record of a parent layer. -/
theorem getPaths_identifiers (storePaths : List String) (parents : List Layer)
    (rewrites : List RewritePath) (exclude : String) (permPaths : List PermPath) :
    (getPaths storePaths parents rewrites exclude permPaths).map (fun path => path.Path)
      = storePaths.filter (fun p =>
          decide (p ≠ exclude) &&
            !(parents.any fun layer =>
                layer.Paths.any fun q => decide (q = resolvePath p rewrites permPaths))) := by
  rw [getPaths_eq, List.map_map]
  have hid : ((fun (path : Path) => path.Path) ∘ fun p => resolvePath p rewrites permPaths)
      = id := by
    funext p
    rfl
  rw [hid, List.map_id]
  rfl

/-- C20: `SortedPathsByNarSize` returns no error, and its output is a permutation of the
list of the records' `path` fields; in particular it has the length of the input. -/
theorem SortedPathsByNarSize_perm (storepaths : List Storepath) :
    (SortedPathsByNarSize storepaths).2 = none ∧
    (SortedPathsByNarSize storepaths).1.Perm (storepaths.map fun sp => sp.Path) ∧
    (SortedPathsByNarSize storepaths).1.length = storepaths.length := by
  have hperm : (SortedPathsByNarSize storepaths).1.Perm (storepaths.map fun sp => sp.Path) := by
    have h := (sortedSized_perm storepaths).map (fun s => s.path)
    rw [List.map_map] at h
    exact h
  refine ⟨rfl, hperm, ?_⟩
  rw [hperm.length_eq, List.length_map]

/-! ## Facts about the closure graph model -/

theorem foldl_max_range (n : Nat) : (List.range (n + 1)).foldl max 0 = n := by
  induction n with
  | zero => rfl
  | succ m ih =>
    rw [List.range_succ, List.foldl_append, ih]
    simp

theorem NewNode_of_range (g : DirectedGraph) (n : Nat) (h : g.nodes = List.range n) :
    g.NewNode = n := by
  unfold DirectedGraph.NewNode
  rw [h]
  cases n with
  | zero => simp
  | succ m =>
    have hne : List.range (m + 1) ≠ [] := by
      intro h0
      have := congrArg List.length h0
      simp at this
    rw [if_neg hne, foldl_max_range]

theorem lookup_eq_none_iff (M : PathMap) (x : String) :
    M.lookup x = none ↔ x ∉ M.map Prod.fst := by
  induction M with
  | nil => simp
  | cons e rest ih =>
    obtain ⟨k, v⟩ := e
    rw [List.lookup_cons]
    by_cases h : x = k
    · subst h
      simp
    · have hb : (x == k) = false := by simpa using h
      rw [hb]
      simp only [List.map_cons, List.mem_cons, not_or]
      rw [ih]
      exact ⟨fun hr => ⟨h, hr⟩, fun hr => hr.2⟩

theorem lookup_eq_some_iff (M : PathMap) (hnd : (M.map Prod.fst).Nodup) (x : String) (i : Nat) :
    M.lookup x = some i ↔ (x, i) ∈ M := by
  induction M with
  | nil => simp
  | cons e rest ih =>
    obtain ⟨k, v⟩ := e
    rw [List.map_cons, List.nodup_cons] at hnd
    rw [List.lookup_cons]
    by_cases h : x = k
    · subst h
      have hb : (x == x) = true := by simp
      rw [hb]
      simp only [Option.some.injEq, List.mem_cons, Prod.mk.injEq, true_and]
      constructor
      · intro hv; exact Or.inl hv.symm
      · rintro (hv | hmem)
        · exact hv.symm
        · exact absurd (List.mem_map.2 ⟨(x, i), hmem, rfl⟩) hnd.1
    · have hb : (x == k) = false := by simpa using h
      rw [hb]
      simp only [List.mem_cons, Prod.mk.injEq, h, false_and, false_or]
      exact ih hnd.2

/-- Under the invariant an entry `(x, i)` is in the map exactly when `x` is a key and `i` is
its position among the keys. -/
theorem GraphInv.mem_iff {S : List String} {EV : List (String × String)}
    {st : PathMap × DirectedGraph} (h : GraphInv S EV st) (x : String) (i : Nat) :
    (x, i) ∈ st.1 ↔ x ∈ st.1.map Prod.fst ∧ i = (st.1.map Prod.fst).indexOf x := by
  rw [h.ids, List.getElem?_eq_some]
  constructor
  · rintro ⟨hi, hx⟩
    refine ⟨hx ▸ List.getElem_mem _, ?_⟩
    rw [← hx, List.indexOf_getElem h.nodup]
  · rintro ⟨hx, hi⟩
    have hlt : (st.1.map Prod.fst).indexOf x < (st.1.map Prod.fst).length :=
      List.indexOf_lt_length.2 hx
    subst hi
    exact ⟨hlt, List.getElem_indexOf hlt⟩

theorem GraphInv.id_lt {S : List String} {EV : List (String × String)}
    {st : PathMap × DirectedGraph} (h : GraphInv S EV st) {x : String} {i : Nat}
    (hx : (x, i) ∈ st.1) : i < st.1.length := by
  obtain ⟨hk, hi⟩ := (h.mem_iff x i).1 hx
  rw [hi]
  simpa using List.indexOf_lt_length.2 hk

theorem GraphInv.key_unique {S : List String} {EV : List (String × String)}
    {st : PathMap × DirectedGraph} (h : GraphInv S EV st) {x y : String} {i : Nat}
    (hx : (x, i) ∈ st.1) (hy : (y, i) ∈ st.1) : x = y := by
  have h1 := (h.ids x i).1 hx
  have h2 := (h.ids y i).1 hy
  rw [h1] at h2
  exact Option.some.inj h2

theorem GraphInv.id_unique {S : List String} {EV : List (String × String)}
    {st : PathMap × DirectedGraph} (h : GraphInv S EV st) {x : String} {i j : Nat}
    (hi : (x, i) ∈ st.1) (hj : (x, j) ∈ st.1) : i = j := by
  rw [((h.mem_iff x i).1 hi).2, ((h.mem_iff x j).1 hj).2]

theorem graphInv_init : GraphInv [] [] ([], NewDirectedGraph) where
  ids := by simp
  nodes := rfl
  nodup := by simp
  keys := by simp
  order := by simp
  edges := by simp [NewDirectedGraph]
  pairs := by simp

/-- Scanning an identifier that is already a key leaves the state as it is. -/
theorem GraphInv.scan_old {S : List String} {EV : List (String × String)}
    {st : PathMap × DirectedGraph} (h : GraphInv S EV st) {x : String} (hx : x ∈ S) :
    GraphInv (S ++ [x]) EV st where
  ids := h.ids
  nodes := h.nodes
  nodup := h.nodup
  keys := by
    intro y
    rw [h.keys, List.mem_append, List.mem_singleton]
    constructor
    · exact Or.inl
    · rintro (hy | hy)
      · exact hy
      · exact hy ▸ hx
  order := by
    intro a b ha hb
    have ha' : a ∈ S := by
      rcases List.mem_append.1 ha with h1 | h1
      · exact h1
      · exact (List.mem_singleton.1 h1) ▸ hx
    have hb' : b ∈ S := by
      rcases List.mem_append.1 hb with h1 | h1
      · exact h1
      · exact (List.mem_singleton.1 h1) ▸ hx
    rw [List.indexOf_append_of_mem ha', List.indexOf_append_of_mem hb']
    exact h.order a b ha' hb'
  edges := h.edges
  pairs := fun a b hab =>
    ⟨List.mem_append_left _ (h.pairs a b hab).1, List.mem_append_left _ (h.pairs a b hab).2⟩

/-- Scanning an identifier that is not yet a key appends it with the next id. -/
theorem GraphInv.scan_new {S : List String} {EV : List (String × String)}
    {st : PathMap × DirectedGraph} (h : GraphInv S EV st) {x : String} (hx : x ∉ S) :
    GraphInv (S ++ [x]) EV (st.1 ++ [(x, st.1.length)], st.2.AddNode st.1.length) where
  ids := by
    intro y i
    have hxk : x ∉ st.1.map Prod.fst := fun hk => hx ((h.keys x).1 hk)
    simp only [List.mem_append, List.mem_singleton, Prod.mk.injEq, List.map_append,
      List.map_cons, List.map_nil]
    rcases Nat.lt_trichotomy i st.1.length with hlt | heq | hgt
    · rw [List.getElem?_append_left (by simpa using hlt), ← h.ids]
      constructor
      · rintro (hm | ⟨_, hi⟩)
        · exact hm
        · omega
      · exact Or.inl
    · subst heq
      rw [List.getElem?_append_right (by simp)]
      simp only [List.length_map, Nat.sub_self, List.getElem?_cons_zero, Option.some.injEq]
      constructor
      · rintro (hm | ⟨hy, _⟩)
        · exact absurd (h.id_lt hm) (Nat.lt_irrefl _)
        · exact hy.symm
      · intro hy
        exact Or.inr ⟨hy.symm, trivial⟩
    · rw [List.getElem?_append_right (by simp; omega)]
      have hnone : [x][i - (st.1.map Prod.fst).length]? = none := by
        apply List.getElem?_eq_none
        simp only [List.length_map, List.length_singleton]
        omega
      rw [hnone]
      constructor
      · rintro (hm | ⟨_, hi⟩)
        · have := h.id_lt hm
          omega
        · omega
      · intro hc
        cases hc
  nodes := by
    simp only [DirectedGraph.AddNode, h.nodes, List.length_append, List.length_singleton]
    rw [List.range_succ]
  nodup := by
    have hxk : x ∉ st.1.map Prod.fst := fun hk => hx ((h.keys x).1 hk)
    simp only [List.map_append, List.map_cons, List.map_nil]
    rw [List.nodup_append]
    refine ⟨h.nodup, List.nodup_singleton x, ?_⟩
    intro a ha hb
    rw [List.mem_singleton] at hb
    exact hxk (hb ▸ ha)
  keys := by
    intro y
    simp only [List.map_append, List.map_cons, List.map_nil, List.mem_append, h.keys]
  order := by
    intro a b ha hb
    have hxk : x ∉ st.1.map Prod.fst := fun hk => hx ((h.keys x).1 hk)
    have hlen : ∀ c, c ∈ S → S.indexOf c < S.length := fun c hc => List.indexOf_lt_length.2 hc
    have hlenK : ∀ c, c ∈ S → (st.1.map Prod.fst).indexOf c < (st.1.map Prod.fst).length :=
      fun c hc => List.indexOf_lt_length.2 ((h.keys c).2 hc)
    have hnewS : (S ++ [x]).indexOf x = S.length := by
      rw [List.indexOf_append_of_not_mem hx]
      simp
    have hnewK : (st.1.map Prod.fst ++ [x]).indexOf x = (st.1.map Prod.fst).length := by
      rw [List.indexOf_append_of_not_mem hxk]
      simp
    simp only [List.map_append, List.map_cons, List.map_nil]
    rcases List.mem_append.1 ha with ha' | ha' <;> rcases List.mem_append.1 hb with hb' | hb'
    · rw [List.indexOf_append_of_mem ha', List.indexOf_append_of_mem hb',
        List.indexOf_append_of_mem ((h.keys a).2 ha'),
        List.indexOf_append_of_mem ((h.keys b).2 hb')]
      exact h.order a b ha' hb'
    · rw [List.mem_singleton] at hb'
      subst hb'
      rw [List.indexOf_append_of_mem ha', List.indexOf_append_of_mem ((h.keys a).2 ha'),
        hnewS, hnewK]
      exact ⟨fun _ => hlenK a ha', fun _ => hlen a ha'⟩
    · rw [List.mem_singleton] at ha'
      subst ha'
      rw [List.indexOf_append_of_mem hb', List.indexOf_append_of_mem ((h.keys b).2 hb'),
        hnewS, hnewK]
      constructor
      · intro hc
        exact absurd (hlen b hb') (by omega)
      · intro hc
        exact absurd (hlenK b hb') (by omega)
    · rw [List.mem_singleton] at ha' hb'
      subst ha'
      subst hb'
      simp
  edges := by
    intro i j
    simp only [DirectedGraph.AddNode]
    rw [h.edges]
    constructor
    · rintro ⟨a, b, hab, hne, ha, hb⟩
      exact ⟨a, b, hab, hne, List.mem_append_left _ ha, List.mem_append_left _ hb⟩
    · rintro ⟨a, b, hab, hne, ha, hb⟩
      have hax : a ≠ x := fun e => hx (e ▸ (h.pairs a b hab).1)
      have hbx : b ≠ x := fun e => hx (e ▸ (h.pairs a b hab).2)
      refine ⟨a, b, hab, hne, ?_, ?_⟩
      · rcases List.mem_append.1 ha with h1 | h1
        · exact h1
        · simp only [List.mem_singleton, Prod.mk.injEq] at h1
          exact absurd h1.1 hax
      · rcases List.mem_append.1 hb with h1 | h1
        · exact h1
        · simp only [List.mem_singleton, Prod.mk.injEq] at h1
          exact absurd h1.1 hbx
  pairs := fun a b hab =>
    ⟨List.mem_append_left _ (h.pairs a b hab).1, List.mem_append_left _ (h.pairs a b hab).2⟩

/-- Obtaining the node of an identifier: the invariant extends to one more scanned
identifier, the returned id is recorded for it, and no entry of the map is lost. -/
theorem nodeFor_inv {S : List String} {EV : List (String × String)}
    {st : PathMap × DirectedGraph} (h : GraphInv S EV st) (x : String) :
    GraphInv (S ++ [x]) EV (nodeFor st x).2 ∧
      (x, (nodeFor st x).1) ∈ (nodeFor st x).2.1 ∧
      (∀ e ∈ st.1, e ∈ (nodeFor st x).2.1) := by
  unfold nodeFor
  cases hl : st.1.lookup x with
  | none =>
    have hxk : x ∉ st.1.map Prod.fst := (lookup_eq_none_iff _ _).1 hl
    have hx : x ∉ S := fun hs => hxk ((h.keys x).2 hs)
    simp only [NewNode_of_range st.2 _ h.nodes]
    exact ⟨h.scan_new hx, by simp, fun e he => List.mem_append_left _ he⟩
  | some id =>
    have hm : (x, id) ∈ st.1 := (lookup_eq_some_iff _ h.nodup _ _).1 hl
    have hx : x ∈ S := (h.keys x).1 (List.mem_map.2 ⟨(x, id), hm, rfl⟩)
    exact ⟨h.scan_old hx, hm, fun e he => he⟩

/-- Handling the pair `(a, b)` whose ends have the ids `u` and `v`: the edge is set unless
the ends coincide. -/
theorem GraphInv.handle_pair {S : List String} {EV : List (String × String)}
    {st : PathMap × DirectedGraph} (h : GraphInv S EV st) {a b : String} {u v : Nat}
    (ha : (a, u) ∈ st.1) (hb : (b, v) ∈ st.1) :
    GraphInv S (EV ++ [(a, b)]) (if u = v then st else (st.1, st.2.SetEdge u v)) := by
  have haS : a ∈ S := (h.keys a).1 (List.mem_map.2 ⟨(a, u), ha, rfl⟩)
  have hbS : b ∈ S := (h.keys b).1 (List.mem_map.2 ⟨(b, v), hb, rfl⟩)
  have hpairs : ∀ c d, (c, d) ∈ EV ++ [(a, b)] → c ∈ S ∧ d ∈ S := by
    intro c d hcd
    rcases List.mem_append.1 hcd with h1 | h1
    · exact h.pairs c d h1
    · simp only [List.mem_singleton, Prod.mk.injEq] at h1
      rw [h1.1, h1.2]
      exact ⟨haS, hbS⟩
  by_cases huv : u = v
  · rw [if_pos huv]
    subst huv
    have hab : a = b := h.key_unique ha hb
    refine ⟨h.ids, h.nodes, h.nodup, h.keys, h.order, ?_, hpairs⟩
    intro i j
    rw [h.edges]
    constructor
    · rintro ⟨c, d, hcd, hne, hc, hd⟩
      exact ⟨c, d, List.mem_append_left _ hcd, hne, hc, hd⟩
    · rintro ⟨c, d, hcd, hne, hc, hd⟩
      rcases List.mem_append.1 hcd with h1 | h1
      · exact ⟨c, d, h1, hne, hc, hd⟩
      · simp only [List.mem_singleton, Prod.mk.injEq] at h1
        exact absurd (h1.1.trans (hab.trans h1.2.symm)) hne
  · rw [if_neg huv]
    have hne : a ≠ b := fun e => huv (h.id_unique ha (e ▸ hb))
    have hu : u ∈ st.2.nodes := by
      rw [h.nodes, List.mem_range]; exact h.id_lt ha
    have hv : v ∈ st.2.nodes := by
      rw [h.nodes, List.mem_range]; exact h.id_lt hb
    refine ⟨h.ids, ?_, h.nodup, h.keys, h.order, ?_, hpairs⟩
    · simp only [DirectedGraph.SetEdge, hu, hv, if_true]
      exact h.nodes
    · intro i j
      have hmem : (i, j) ∈ (st.2.SetEdge u v).edges ↔ (i, j) ∈ st.2.edges ∨ (i, j) = (u, v) := by
        simp only [DirectedGraph.SetEdge]
        by_cases he : (u, v) ∈ st.2.edges
        · rw [if_pos he]
          constructor
          · exact Or.inl
          · rintro (h1 | h1)
            · exact h1
            · rw [h1]; exact he
        · rw [if_neg he, List.mem_append, List.mem_singleton]
      show (i, j) ∈ (st.2.SetEdge u v).edges ↔ _
      rw [hmem, h.edges]
      constructor
      · rintro (⟨c, d, hcd, hne', hc, hd⟩ | hij)
        · exact ⟨c, d, List.mem_append_left _ hcd, hne', hc, hd⟩
        · simp only [Prod.mk.injEq] at hij
          rw [hij.1, hij.2]
          exact ⟨a, b, List.mem_append_right _ (List.mem_singleton.2 rfl), hne, ha, hb⟩
      · rintro ⟨c, d, hcd, hne', hc, hd⟩
        rcases List.mem_append.1 hcd with h1 | h1
        · exact Or.inl ⟨c, d, h1, hne', hc, hd⟩
        · simp only [List.mem_singleton, Prod.mk.injEq] at h1
          right
          rw [h1.1] at hc
          rw [h1.2] at hd
          rw [h.id_unique hc ha, h.id_unique hd hb]

/-- The inner loop over the references of a record with path `a` and node id `u`. -/
theorem addReferences_inv (a : String) (u : Nat) (references : List String) :
    ∀ {S : List String} {EV : List (String × String)} {st : PathMap × DirectedGraph},
      GraphInv S EV st → (a, u) ∈ st.1 →
      GraphInv (S ++ references) (EV ++ references.map (fun r => (a, r)))
          (addReferences u references st) ∧
        (∀ e ∈ st.1, e ∈ (addReferences u references st).1) := by
  induction references with
  | nil =>
    intro S EV st h _
    simp only [List.append_nil, List.map_nil]
    exact ⟨h, fun e he => he⟩
  | cons r rest ih =>
    intro S EV st h ha
    obtain ⟨h1, hr, hmono⟩ := nodeFor_inv h r
    have ha1 : (a, u) ∈ (nodeFor st r).2.1 := hmono _ ha
    have h2 := h1.handle_pair ha1 hr
    have hstep : addReferences u (r :: rest) st
        = addReferences u rest
            (if u = (nodeFor st r).1 then (nodeFor st r).2
              else ((nodeFor st r).2.1, (nodeFor st r).2.2.SetEdge u (nodeFor st r).1)) := by
      simp only [addReferences, List.foldl_cons]
    have hfst : (if u = (nodeFor st r).1 then (nodeFor st r).2
        else ((nodeFor st r).2.1, (nodeFor st r).2.2.SetEdge u (nodeFor st r).1)).1
        = (nodeFor st r).2.1 := by
      split <;> rfl
    have ha2 : (a, u) ∈ (if u = (nodeFor st r).1 then (nodeFor st r).2
        else ((nodeFor st r).2.1, (nodeFor st r).2.2.SetEdge u (nodeFor st r).1)).1 := by
      rw [hfst]; exact ha1
    obtain ⟨h3, hmono3⟩ := ih h2 ha2
    rw [hstep]
    refine ⟨?_, ?_⟩
    · have e1 : S ++ r :: rest = S ++ [r] ++ rest := by simp
      have e2 : EV ++ (r :: rest).map (fun r => (a, r))
          = EV ++ [(a, r)] ++ rest.map (fun r => (a, r)) := by simp
      rw [e1, e2]
      exact h3
    · intro e he
      apply hmono3
      rw [hfst]
      exact hmono e he

theorem addStorepath_inv {S : List String} {EV : List (String × String)}
    {st : PathMap × DirectedGraph} (h : GraphInv S EV st) (p : Storepath) :
    GraphInv (S ++ (p.Path :: p.References))
        (EV ++ p.References.map (fun r => (p.Path, r))) (addStorepath st p) ∧
      (∀ e ∈ st.1, e ∈ (addStorepath st p).1) := by
  obtain ⟨h1, hu, hmono⟩ := nodeFor_inv h p.Path
  obtain ⟨h2, hmono2⟩ := addReferences_inv p.Path (nodeFor st p.Path).1 p.References h1 hu
  unfold addStorepath
  refine ⟨?_, fun e he => hmono2 e (hmono e he)⟩
  have e1 : S ++ p.Path :: p.References = S ++ [p.Path] ++ p.References := by simp
  rw [e1]
  exact h2

theorem foldl_addStorepath_inv (storepaths : List Storepath) :
    ∀ {S : List String} {EV : List (String × String)} {st : PathMap × DirectedGraph},
      GraphInv S EV st →
      GraphInv (S ++ scanIds storepaths) (EV ++ refPairs storepaths)
          (storepaths.foldl addStorepath st) ∧
        (∀ e ∈ st.1, e ∈ (storepaths.foldl addStorepath st).1) := by
  induction storepaths with
  | nil =>
    intro S EV st h
    simp only [scanIds, refPairs, List.flatMap_nil, List.append_nil, List.foldl_nil]
    exact ⟨h, fun e he => he⟩
  | cons p rest ih =>
    intro S EV st h
    obtain ⟨h1, hmono1⟩ := addStorepath_inv h p
    obtain ⟨h2, hmono2⟩ := ih h1
    rw [List.foldl_cons]
    refine ⟨?_, fun e he => hmono2 e (hmono1 e he)⟩
    have e1 : S ++ scanIds (p :: rest) = S ++ (p.Path :: p.References) ++ scanIds rest := by
      simp [scanIds]
    have e2 : EV ++ refPairs (p :: rest)
        = EV ++ p.References.map (fun r => (p.Path, r)) ++ refPairs rest := by
      simp [refPairs]
    rw [e1, e2]
    exact h2

/-- The invariant holds for the outcome of `buildGraph`, with all identifiers scanned and
all reference pairs handled. -/
theorem buildGraph_inv (storepaths : List Storepath) :
    GraphInv (scanIds storepaths) (refPairs storepaths) (buildGraph storepaths) := by
  have h := (foldl_addStorepath_inv storepaths graphInv_init).1
  simpa [buildGraph] using h

/-- The map built for a prefix of the input is contained in the map built for the input. -/
theorem buildGraph_prefix (pre suf : List Storepath) :
    ∀ e ∈ (buildGraph pre).1, e ∈ (buildGraph (pre ++ suf)).1 := by
  have h := (foldl_addStorepath_inv suf (buildGraph_inv pre)).2
  unfold buildGraph at h ⊢
  rw [List.foldl_append]
  exact h

theorem mem_refPairs (storepaths : List Storepath) (a b : String) :
    (a, b) ∈ refPairs storepaths ↔ ∃ p ∈ storepaths, p.Path = a ∧ b ∈ p.References := by
  unfold refPairs
  rw [List.mem_flatMap]
  constructor
  · rintro ⟨p, hp, hab⟩
    rw [List.mem_map] at hab
    obtain ⟨r, hr, he⟩ := hab
    simp only [Prod.mk.injEq] at he
    exact ⟨p, hp, he.1, he.2 ▸ hr⟩
  · rintro ⟨p, hp, hpa, hb⟩
    exact ⟨p, hp, List.mem_map.2 ⟨b, hb, by rw [hpa]⟩⟩

theorem buildGraph_lookup_iff (storepaths : List Storepath) (x : String) (i : Nat) :
    (buildGraph storepaths).1.lookup x = some i ↔ (x, i) ∈ (buildGraph storepaths).1 :=
  lookup_eq_some_iff _ (buildGraph_inv storepaths).nodup x i

theorem mem_scanIds (storepaths : List Storepath) (x : String) :
    x ∈ scanIds storepaths ↔ ∃ p ∈ storepaths, x = p.Path ∨ x ∈ p.References := by
  unfold scanIds
  rw [List.mem_flatMap]
  simp only [List.mem_cons]

/-! ## Graph construction (`buildGraph`) -/

/-- C12: in the outcome of `buildGraph` the returned map is defined exactly on the
identifiers that occur as a path or as a reference, and it is a bijection from them onto the
nodes of the graph (into the nodes, injective, onto; no node is listed twice); the edges are
exactly the pairs `(id(p.path), id(r))` for a record `p` and a reference `r` of `p` with
`r ≠ p.path`; in particular the graph has no self-loop. -/
theorem buildGraph_nodes_edges (storepaths : List Storepath) :
    (∀ x, (∃ i, (buildGraph storepaths).1.lookup x = some i) ↔
      ∃ p ∈ storepaths, x = p.Path ∨ x ∈ p.References) ∧
    (∀ x i, (buildGraph storepaths).1.lookup x = some i →
      i ∈ (buildGraph storepaths).2.nodes) ∧
    (∀ x y i, (buildGraph storepaths).1.lookup x = some i →
      (buildGraph storepaths).1.lookup y = some i → x = y) ∧
    (∀ i ∈ (buildGraph storepaths).2.nodes,
      ∃ x, (buildGraph storepaths).1.lookup x = some i) ∧
    (buildGraph storepaths).2.nodes.Nodup ∧
    (∀ i j, (i, j) ∈ (buildGraph storepaths).2.edges ↔
      ∃ p ∈ storepaths, ∃ r ∈ p.References, r ≠ p.Path ∧
        (buildGraph storepaths).1.lookup p.Path = some i ∧
        (buildGraph storepaths).1.lookup r = some j) ∧
    (∀ i, (i, i) ∉ (buildGraph storepaths).2.edges) := by
  have h := buildGraph_inv storepaths
  have hedges : ∀ i j, (i, j) ∈ (buildGraph storepaths).2.edges ↔
      ∃ p ∈ storepaths, ∃ r ∈ p.References, r ≠ p.Path ∧
        (buildGraph storepaths).1.lookup p.Path = some i ∧
        (buildGraph storepaths).1.lookup r = some j := by
    intro i j
    rw [h.edges]
    constructor
    · rintro ⟨a, b, hab, hne, ha, hb⟩
      obtain ⟨p, hp, hpa, hbr⟩ := (mem_refPairs storepaths a b).1 hab
      subst hpa
      exact ⟨p, hp, b, hbr, fun e => hne e.symm,
        (buildGraph_lookup_iff _ _ _).2 ha, (buildGraph_lookup_iff _ _ _).2 hb⟩
    · rintro ⟨p, hp, r, hr, hne, ha, hb⟩
      exact ⟨p.Path, r, (mem_refPairs storepaths _ _).2 ⟨p, hp, rfl, hr⟩,
        fun e => hne e.symm, (buildGraph_lookup_iff _ _ _).1 ha,
        (buildGraph_lookup_iff _ _ _).1 hb⟩
  refine ⟨?_, ?_, ?_, ?_, ?_, hedges, ?_⟩
  · intro x
    rw [← mem_scanIds, ← h.keys]
    constructor
    · rintro ⟨i, hi⟩
      exact List.mem_map.2 ⟨(x, i), (buildGraph_lookup_iff _ _ _).1 hi, rfl⟩
    · intro hx
      obtain ⟨e, he, hex⟩ := List.mem_map.1 hx
      obtain ⟨k, i⟩ := e
      simp only at hex
      subst hex
      exact ⟨i, (buildGraph_lookup_iff _ _ _).2 he⟩
  · intro x i hi
    rw [h.nodes, List.mem_range]
    exact h.id_lt ((buildGraph_lookup_iff _ _ _).1 hi)
  · intro x y i hx hy
    exact h.key_unique ((buildGraph_lookup_iff _ _ _).1 hx) ((buildGraph_lookup_iff _ _ _).1 hy)
  · intro i hi
    rw [h.nodes, List.mem_range] at hi
    have hlt : i < ((buildGraph storepaths).1.map Prod.fst).length := by simpa using hi
    refine ⟨((buildGraph storepaths).1.map Prod.fst)[i], ?_⟩
    rw [buildGraph_lookup_iff, h.ids]
    exact List.getElem?_eq_getElem hlt
  · rw [h.nodes]
    exact List.nodup_range _
  · intro i hii
    obtain ⟨p, _, r, _, hne, ha, hb⟩ := (hedges i i).1 hii
    exact hne (h.key_unique ((buildGraph_lookup_iff _ _ _).1 hb)
      ((buildGraph_lookup_iff _ _ _).1 ha))

/-- C12, on a record `a` that refers to itself and twice to `b`: two nodes, the single edge
from `a` to `b`, and no self-loop at `a`. -/
theorem buildGraph_nodes_edges_witness :
    buildGraph closureWithSelfRef
      = ([("a", 0), ("b", 1)], { nodes := [0, 1], edges := [(0, 1)] }) ∧
    (0, 1) ∈ (buildGraph closureWithSelfRef).2.edges ∧
    (0, 0) ∉ (buildGraph closureWithSelfRef).2.edges :=
  ⟨by decide,
    ((buildGraph_nodes_edges closureWithSelfRef).2.2.2.2.2.1 0 1).2
      ⟨refRecord "a" ["a", "b", "b"], by decide, "b", by decide, by decide, by decide,
        by decide⟩,
    (buildGraph_nodes_edges closureWithSelfRef).2.2.2.2.2.2 0⟩

/-- C17: the identifier-to-id map returned by `buildGraph` is injective and assigns ids in
first-occurrence order of the scan (each record's path followed by its references): an
identifier first seen earlier has a strictly smaller id, and conversely; and an identifier
keeps, in the map of the whole input, the id it has in the map built from any prefix of the
input in which it already occurs. -/
theorem buildGraph_first_occurrence_ids (storepaths : List Storepath) :
    (∀ x y i, (buildGraph storepaths).1.lookup x = some i →
      (buildGraph storepaths).1.lookup y = some i → x = y) ∧
    (∀ x y i j, (buildGraph storepaths).1.lookup x = some i →
      (buildGraph storepaths).1.lookup y = some j →
      ((storepaths.flatMap (fun p => p.Path :: p.References)).indexOf x
          < (storepaths.flatMap (fun p => p.Path :: p.References)).indexOf y ↔ i < j)) ∧
    (∀ pre suf, storepaths = pre ++ suf →
      ∀ x i, (buildGraph pre).1.lookup x = some i →
        (buildGraph storepaths).1.lookup x = some i) := by
  have h := buildGraph_inv storepaths
  refine ⟨?_, ?_, ?_⟩
  · intro x y i hx hy
    exact h.key_unique ((buildGraph_lookup_iff _ _ _).1 hx) ((buildGraph_lookup_iff _ _ _).1 hy)
  · intro x y i j hx hy
    have hx' := (h.mem_iff x i).1 ((buildGraph_lookup_iff _ _ _).1 hx)
    have hy' := (h.mem_iff y j).1 ((buildGraph_lookup_iff _ _ _).1 hy)
    rw [hx'.2, hy'.2]
    exact h.order x y ((h.keys x).1 hx'.1) ((h.keys y).1 hy'.1)
  · intro pre suf hsp x i hx
    subst hsp
    rw [buildGraph_lookup_iff] at hx ⊢
    exact buildGraph_prefix pre suf _ hx

/-- C17, on the closure `a → b, c`, `b`, `c → b`, scanned as `a, b, c, b, c, b`: `b` is
first seen before `c` and has the smaller id, and keeps the id 1 it has after the first
record. -/
theorem buildGraph_first_occurrence_ids_witness :
    (buildGraph closureExample).1 = [("a", 0), ("b", 1), ("c", 2)] ∧
    ((closureExample.flatMap (fun p => p.Path :: p.References)).indexOf "b"
        < (closureExample.flatMap (fun p => p.Path :: p.References)).indexOf "c" ↔ 1 < 2) ∧
    (buildGraph closureExample).1.lookup "b" = some 1 :=
  ⟨by decide,
    (buildGraph_first_occurrence_ids closureExample).2.1 "b" "c" 1 2 (by decide) (by decide),
    (buildGraph_first_occurrence_ids closureExample).2.2 [refRecord "a" ["b", "c"]]
      [refRecord "b" [], refRecord "c" ["b"]] (by decide) "b" 1 (by decide)⟩

/-! ## Facts about the popularity order -/

/-- The inner loop of `SortedPathsByPopularity` over entries among which at most one key has
the id: the outcome is that key, or the initial value when there is none. -/
theorem foldl_pathOfId (id : Nat) (order : List (String × Nat))
    (huniq : ∀ x y, (x, id) ∈ order → (y, id) ∈ order → x = y) (init : String) :
    (∃ x, (x, id) ∈ order ∧
        order.foldl (fun cur e => if e.2 = id then e.1 else cur) init = x) ∨
      ((∀ x, (x, id) ∉ order) ∧
        order.foldl (fun cur e => if e.2 = id then e.1 else cur) init = init) := by
  induction order generalizing init with
  | nil => right; simp
  | cons e rest ih =>
    obtain ⟨k, i⟩ := e
    have huniq' : ∀ x y, (x, id) ∈ rest → (y, id) ∈ rest → x = y := fun x y hx hy =>
      huniq x y (List.mem_cons_of_mem _ hx) (List.mem_cons_of_mem _ hy)
    rw [List.foldl_cons]
    by_cases hi : i = id
    · subst hi
      left
      refine ⟨k, List.mem_cons_self _ _, ?_⟩
      simp only [if_true]
      rcases ih huniq' k with ⟨x, hx, hres⟩ | ⟨_, hres⟩
      · rw [hres]
        exact huniq x k (List.mem_cons_of_mem _ hx) (List.mem_cons_self _ _)
      · exact hres
    · simp only [hi, if_false]
      rcases ih huniq' init with ⟨x, hx, hres⟩ | ⟨hno, hres⟩
      · left; exact ⟨x, List.mem_cons_of_mem _ hx, hres⟩
      · right
        refine ⟨?_, hres⟩
        intro x hx
        rcases List.mem_cons.1 hx with h1 | h1
        · simp only [Prod.mk.injEq] at h1
          exact hi h1.2.symm
        · exact hno x h1

/-- The key found for an id does not depend on the order in which the entries of the map
are visited. -/
theorem pathOfId_perm (M order : List (String × Nat)) (id : Nat) (hperm : order.Perm M)
    (huniq : ∀ x y, (x, id) ∈ M → (y, id) ∈ M → x = y) :
    pathOfId order id = pathOfId M id := by
  have huniq' : ∀ x y, (x, id) ∈ order → (y, id) ∈ order → x = y := fun x y hx hy =>
    huniq x y (hperm.subset hx) (hperm.subset hy)
  unfold pathOfId
  rcases foldl_pathOfId id order huniq' "" with ⟨x, hx, h1⟩ | ⟨hno, h1⟩ <;>
    rcases foldl_pathOfId id M huniq "" with ⟨y, hy, h2⟩ | ⟨hno', h2⟩
  · rw [h1, h2]; exact huniq x y (hperm.subset hx) hy
  · exact absurd (hperm.subset hx) (hno' x)
  · exact absurd (hperm.symm.subset hy) (hno y)
  · rw [h1, h2]

/-- The key found for the id of an entry of the map of `buildGraph` is the key of that
entry. -/
theorem pathOfId_buildGraph (storepaths : List Storepath) (x : String) (id : Nat)
    (hx : (x, id) ∈ (buildGraph storepaths).1) :
    pathOfId (buildGraph storepaths).1 id = x := by
  have h := buildGraph_inv storepaths
  unfold pathOfId
  rcases foldl_pathOfId id (buildGraph storepaths).1 (fun a b ha hb => h.key_unique ha hb) ""
    with ⟨y, hy, h1⟩ | ⟨hno, _⟩
  · rw [h1]; exact h.key_unique hy hx
  · exact absurd hx (hno x)

/-- The outcome of `SortedPathsByPopularity` does not depend on the iteration orders. -/
theorem SortedPathsByPopularity_iter (scoreFn : DirectedGraph → List scored × Option Error)
    (iter : Nat → List (String × Nat)) (storepaths : List Storepath)
    (hiter : ∀ i, (iter i).Perm (buildGraph storepaths).1) :
    SortedPathsByPopularity scoreFn iter storepaths =
      match (scoreFn (buildGraph storepaths).2).2 with
      | some err => ([], some err)
      | none =>
        ((scoreFn (buildGraph storepaths).2).1.map
          (fun s => pathOfId (buildGraph storepaths).1 s.id), none) := by
  have h := buildGraph_inv storepaths
  unfold SortedPathsByPopularity
  simp only
  cases (scoreFn (buildGraph storepaths).2).2 with
  | some err => rfl
  | none =>
    simp only
    congr 1
    have hfun : (fun (is : Nat × scored) => pathOfId (iter is.1) is.2.id)
        = (fun is => (fun s => pathOfId (buildGraph storepaths).1 s.id) is.2) := by
      funext is
      exact pathOfId_perm _ _ _ (hiter is.1) (fun a b ha hb => h.key_unique ha hb)
    rw [hfun]
    have hcomp : (fun (is : Nat × scored) =>
          (fun (s : scored) => pathOfId (buildGraph storepaths).1 s.id) is.2)
        = (fun (s : scored) => pathOfId (buildGraph storepaths).1 s.id) ∘ Prod.snd := rfl
    rw [hcomp, ← List.map_map, List.enum_map_snd]

/-! ## Determinism of the pipeline -/

/-- The layers returned by `newLayers`, and whether it returns an error, do not depend on
the order in which the results arrive. -/
theorem newLayers_sched (prim : DigestPrimitive) (sched₁ sched₂ : List Nat) (paths : Paths)
    (tarDirectory : String) (maxLayers : Int) (history : History)
    (hs₁ : sched₁.Perm (List.range (numLayersOf paths.length maxLayers)))
    (hs₂ : sched₂.Perm (List.range (numLayersOf paths.length maxLayers))) :
    (newLayers prim sched₁ paths tarDirectory maxLayers history).1
        = (newLayers prim sched₂ paths tarDirectory maxLayers history).1 ∧
      ((newLayers prim sched₁ paths tarDirectory maxLayers history).2 = none ↔
        (newLayers prim sched₂ paths tarDirectory maxLayers history).2 = none) := by
  by_cases hne : paths = []
  · subst hne
    simp [newLayers_nil]
  · rw [newLayers_perm_eq prim sched₁ paths tarDirectory maxLayers history hne hs₁,
      newLayers_perm_eq prim sched₂ paths tarDirectory maxLayers history hne hs₂]
    have hiff : (sched₁.filterMap (fun k => (runJob prim tarDirectory history
          (jobAt paths (numLayersOf paths.length maxLayers) k)).err)).head? = none ↔
        (sched₂.filterMap (fun k => (runJob prim tarDirectory history
          (jobAt paths (numLayersOf paths.length maxLayers) k)).err)).head? = none := by
      rw [List.head?_eq_none_iff, List.head?_eq_none_iff, List.filterMap_eq_nil_iff,
        List.filterMap_eq_nil_iff]
      constructor
      · intro h k hk
        exact h k (hs₁.symm.subset (hs₂.subset hk))
      · intro h k hk
        exact h k (hs₂.symm.subset (hs₁.subset hk))
    cases h1 : (sched₁.filterMap (fun k => (runJob prim tarDirectory history
        (jobAt paths (numLayersOf paths.length maxLayers) k)).err)).head? with
    | none =>
      rw [hiff.1 h1]
      exact ⟨rfl, Iff.rfl⟩
    | some e₁ =>
      cases h2 : (sched₂.filterMap (fun k => (runJob prim tarDirectory history
          (jobAt paths (numLayersOf paths.length maxLayers) k)).err)).head? with
      | none => rw [hiff.2 h2] at h1; cases h1
      | some e₂ => simp

/-- The sorting step does not depend on the iteration orders of the map. -/
theorem sortStorepaths_iter (scoreFn : DirectedGraph → List scored × Option Error)
    (iter₁ iter₂ : Nat → List (String × Nat)) (sortBy : String)
    (closureGraph : List Storepath)
    (hi₁ : ∀ i, (iter₁ i).Perm (buildGraph closureGraph).1)
    (hi₂ : ∀ i, (iter₂ i).Perm (buildGraph closureGraph).1) :
    sortStorepaths scoreFn iter₁ sortBy closureGraph
      = sortStorepaths scoreFn iter₂ sortBy closureGraph := by
  unfold sortStorepaths
  split
  · rfl
  · rw [SortedPathsByPopularity_iter scoreFn iter₁ closureGraph hi₁,
      SortedPathsByPopularity_iter scoreFn iter₂ closureGraph hi₂]

/-- C15: two runs of the pipeline sorter, `getPaths`, `newLayers` on the same inputs, with
the same scoring function and the same digest primitive, return equal layer lists (and
agree on whether they fail), whatever the orders `iter₁`, `iter₂` in which the map of
`SortedPathsByPopularity` is iterated and the orders `sched₁`, `sched₂` in which the results
of the partitions are collected. -/
theorem pipeline_deterministic (scoreFn : DirectedGraph → List scored × Option Error)
    (prim : DigestPrimitive) (iter₁ iter₂ : Nat → List (String × Nat))
    (sched₁ sched₂ : List Nat) (sortBy : String) (closureGraph : List Storepath)
    (maxLayers : Int) (tarDirectory : String) (parents : List Layer)
    (rewrites : List RewritePath) (ignore : String) (perms : List PermPath)
    (history : History)
    (hi₁ : ∀ i, (iter₁ i).Perm (buildGraph closureGraph).1)
    (hi₂ : ∀ i, (iter₂ i).Perm (buildGraph closureGraph).1)
    (hs₁ : sched₁.Perm (List.range (numLayersOf
      (getPaths (sortStorepaths scoreFn iter₁ sortBy closureGraph).1 parents rewrites ignore
        perms).length maxLayers)))
    (hs₂ : sched₂.Perm (List.range (numLayersOf
      (getPaths (sortStorepaths scoreFn iter₂ sortBy closureGraph).1 parents rewrites ignore
        perms).length maxLayers))) :
    ((layersReproducible scoreFn iter₁ prim sched₁ sortBy closureGraph maxLayers parents
          rewrites ignore perms history).1
        = (layersReproducible scoreFn iter₂ prim sched₂ sortBy closureGraph maxLayers parents
          rewrites ignore perms history).1 ∧
      ((layersReproducible scoreFn iter₁ prim sched₁ sortBy closureGraph maxLayers parents
          rewrites ignore perms history).2 = none ↔
        (layersReproducible scoreFn iter₂ prim sched₂ sortBy closureGraph maxLayers parents
          rewrites ignore perms history).2 = none)) ∧
    ((layersNonReproducible scoreFn iter₁ prim sched₁ sortBy closureGraph maxLayers
          tarDirectory parents rewrites ignore perms history).1
        = (layersNonReproducible scoreFn iter₂ prim sched₂ sortBy closureGraph maxLayers
          tarDirectory parents rewrites ignore perms history).1 ∧
      ((layersNonReproducible scoreFn iter₁ prim sched₁ sortBy closureGraph maxLayers
          tarDirectory parents rewrites ignore perms history).2 = none ↔
        (layersNonReproducible scoreFn iter₂ prim sched₂ sortBy closureGraph maxLayers
          tarDirectory parents rewrites ignore perms history).2 = none)) := by
  have hsort := sortStorepaths_iter scoreFn iter₁ iter₂ sortBy closureGraph hi₁ hi₂
  rw [hsort] at hs₁
  unfold layersReproducible layersNonReproducible
  simp only [hsort]
  cases (sortStorepaths scoreFn iter₂ sortBy closureGraph).2 with
  | some err => simp
  | none =>
    simp only [NewLayers, NewLayersNonReproducible]
    exact ⟨newLayers_sched prim sched₁ sched₂ _ "" maxLayers history hs₁ hs₂,
      newLayers_sched prim sched₁ sched₂ _ tarDirectory maxLayers history hs₁ hs₂⟩

/-- C15, on the closure `a → b, c`, `b`, `c → b` with two layers: two runs that iterate the
map and collect the results in different orders return the same layers, `b` alone and then
`c, a`. -/
theorem pipeline_deterministic_witness :
    (layersReproducible Score (fun _ => [("c", 2), ("a", 0), ("b", 1)]) samplePrim [1, 0]
        "popularity" closureExample 2 [] [] "" [] zeroHistory).1
      = (layersReproducible Score (fun _ => [("a", 0), ("b", 1), ("c", 2)]) samplePrim [0, 1]
        "popularity" closureExample 2 [] [] "" [] zeroHistory).1 ∧
    (layersReproducible Score (fun _ => [("c", 2), ("a", 0), ("b", 1)]) samplePrim [1, 0]
        "popularity" closureExample 2 [] [] "" [] zeroHistory).1.map
        (fun l => l.Paths.map (fun path => path.Path))
      = [["b"], ["c", "a"]] :=
  ⟨(pipeline_deterministic Score samplePrim (fun _ => [("c", 2), ("a", 0), ("b", 1)])
      (fun _ => [("a", 0), ("b", 1), ("c", 2)]) [1, 0] [0, 1] "popularity" closureExample 2 ""
      [] [] "" [] zeroHistory
      (fun _ => (by decide :
        [("c", 2), ("a", 0), ("b", 1)].Perm (buildGraph closureExample).1))
      (fun _ => (by decide :
        [("a", 0), ("b", 1), ("c", 2)].Perm (buildGraph closureExample).1))
      (by decide) (by decide)).1.1,
    by decide⟩

/-! ## Facts about the popularity scorer -/

theorem reachVia_sound (edges : List (Nat × Nat)) (ws : List Nat) :
    ∀ u v, reachVia edges ws u v = true →
      Relation.TransGen (fun a b => (a, b) ∈ edges) u v := by
  induction ws with
  | nil =>
    intro u v h
    exact Relation.TransGen.single (of_decide_eq_true h)
  | cons w ws ih =>
    intro u v h
    simp only [reachVia, Bool.or_eq_true, Bool.and_eq_true] at h
    rcases h with h | ⟨h1, h2⟩
    · exact ih u v h
    · exact Relation.TransGen.trans (ih u w h1) (ih w v h2)

/-- A way through `w :: ws` either avoids `w` or splits at `w` into two ways through
`ws`. -/
theorem Via.split {edges : List (Nat × Nat)} {w : Nat} {ws : List Nat} {u v : Nat}
    (h : Via edges (w :: ws) u v) :
    Via edges ws u v ∨ (Via edges ws u w ∧ Via edges ws w v) := by
  induction h with
  | edge he => exact Or.inl (Via.edge he)
  | @step u x v he hx _ ih =>
    rcases List.mem_cons.1 hx with hxw | hxs
    · subst hxw
      right
      refine ⟨Via.edge he, ?_⟩
      rcases ih with h1 | ⟨_, h2⟩
      · exact h1
      · exact h2
    · rcases ih with h1 | ⟨h1, h2⟩
      · exact Or.inl (Via.step he hxs h1)
      · exact Or.inr ⟨Via.step he hxs h1, h2⟩

theorem reachVia_complete (edges : List (Nat × Nat)) (ws : List Nat) :
    ∀ u v, Via edges ws u v → reachVia edges ws u v = true := by
  induction ws with
  | nil =>
    intro u v h
    cases h with
    | edge he => exact decide_eq_true he
    | step _ hw _ => cases hw
  | cons w ws ih =>
    intro u v h
    simp only [reachVia, Bool.or_eq_true, Bool.and_eq_true]
    rcases h.split with h1 | ⟨h1, h2⟩
    · exact Or.inl (ih u v h1)
    · exact Or.inr ⟨ih u w h1, ih w v h2⟩

theorem via_of_transGen (edges : List (Nat × Nat)) (ws : List Nat)
    (hws : ∀ a b, (a, b) ∈ edges → b ∈ ws) (u v : Nat)
    (h : Relation.TransGen (fun a b => (a, b) ∈ edges) u v) : Via edges ws u v := by
  induction h using Relation.TransGen.head_induction_on with
  | base he => exact Via.edge he
  | ih he _ hvia => exact Via.step he (hws _ _ he) hvia

/-- On a graph whose edges end in nodes of the graph, `reachVia` through all nodes decides
reachability along edges. -/
theorem reachVia_iff (g : DirectedGraph) (hg : ∀ a b, (a, b) ∈ g.edges → b ∈ g.nodes)
    (u v : Nat) :
    reachVia g.edges g.nodes u v = true ↔
      Relation.TransGen (fun a b => (a, b) ∈ g.edges) u v :=
  ⟨reachVia_sound g.edges g.nodes u v,
    fun h => reachVia_complete g.edges g.nodes u v (via_of_transGen g.edges g.nodes hg u v h)⟩

theorem buildGraph_edge_iff (storepaths : List Storepath) (i j : Nat) :
    (i, j) ∈ (buildGraph storepaths).2.edges ↔
      ∃ a b, (refersTo storepaths a b ∧ a ≠ b) ∧
        (a, i) ∈ (buildGraph storepaths).1 ∧ (b, j) ∈ (buildGraph storepaths).1 := by
  rw [(buildGraph_inv storepaths).edges]
  constructor
  · rintro ⟨a, b, hab, hne, ha, hb⟩
    exact ⟨a, b, ⟨(mem_refPairs storepaths a b).1 hab, hne⟩, ha, hb⟩
  · rintro ⟨a, b, ⟨hab, hne⟩, ha, hb⟩
    exact ⟨a, b, (mem_refPairs storepaths a b).2 hab, hne, ha, hb⟩

theorem buildGraph_edge_target (storepaths : List Storepath) (a b : Nat)
    (h : (a, b) ∈ (buildGraph storepaths).2.edges) : b ∈ (buildGraph storepaths).2.nodes := by
  obtain ⟨_, y, _, _, hy⟩ := (buildGraph_edge_iff storepaths a b).1 h
  rw [(buildGraph_inv storepaths).nodes, List.mem_range]
  exact (buildGraph_inv storepaths).id_lt hy

theorem buildGraph_has_id (storepaths : List Storepath) (x : String)
    (hx : x ∈ scanIds storepaths) : ∃ i, (x, i) ∈ (buildGraph storepaths).1 := by
  have hk := ((buildGraph_inv storepaths).keys x).2 hx
  obtain ⟨e, he, hex⟩ := List.mem_map.1 hk
  obtain ⟨k, i⟩ := e
  simp only at hex
  subst hex
  exact ⟨i, he⟩

theorem refersTo_mem_scanIds (storepaths : List Storepath) (a b : String)
    (h : refersTo storepaths a b) : a ∈ scanIds storepaths ∧ b ∈ scanIds storepaths := by
  obtain ⟨p, hp, hpa, hb⟩ := h
  exact ⟨(mem_scanIds _ _).2 ⟨p, hp, Or.inl hpa.symm⟩, (mem_scanIds _ _).2 ⟨p, hp, Or.inr hb⟩⟩

/-- Reachability between nodes gives reachability between their identifiers. -/
theorem names_reach_of_nodes_reach (storepaths : List Storepath) (i j : Nat)
    (h : Relation.TransGen (fun u v => (u, v) ∈ (buildGraph storepaths).2.edges) i j) :
    ∀ a b, (a, i) ∈ (buildGraph storepaths).1 → (b, j) ∈ (buildGraph storepaths).1 →
      Relation.TransGen (fun x y => refersTo storepaths x y ∧ x ≠ y) a b := by
  have hinv := buildGraph_inv storepaths
  induction h with
  | single he =>
    intro a b ha hb
    obtain ⟨a', b', hab, ha', hb'⟩ := (buildGraph_edge_iff storepaths _ _).1 he
    rw [hinv.key_unique ha ha', hinv.key_unique hb hb']
    exact Relation.TransGen.single hab
  | tail _ he ih =>
    intro a b ha hb
    obtain ⟨c', b', hcb, hc', hb'⟩ := (buildGraph_edge_iff storepaths _ _).1 he
    rw [hinv.key_unique hb hb']
    exact Relation.TransGen.tail (ih a c' ha hc') hcb

/-- Reachability between identifiers gives reachability between their nodes. -/
theorem nodes_reach_of_names_reach (storepaths : List Storepath) (a b : String)
    (h : Relation.TransGen (fun x y => refersTo storepaths x y ∧ x ≠ y) a b) :
    ∃ i j, (a, i) ∈ (buildGraph storepaths).1 ∧ (b, j) ∈ (buildGraph storepaths).1 ∧
      Relation.TransGen (fun u v => (u, v) ∈ (buildGraph storepaths).2.edges) i j := by
  have hinv := buildGraph_inv storepaths
  induction h with
  | single hab =>
    obtain ⟨i, hi⟩ := buildGraph_has_id storepaths _ (refersTo_mem_scanIds _ _ _ hab.1).1
    obtain ⟨j, hj⟩ := buildGraph_has_id storepaths _ (refersTo_mem_scanIds _ _ _ hab.1).2
    exact ⟨i, j, hi, hj,
      Relation.TransGen.single ((buildGraph_edge_iff storepaths i j).2 ⟨_, _, hab, hi, hj⟩)⟩
  | tail _ hcb ih =>
    obtain ⟨i, k, hi, hk, hik⟩ := ih
    obtain ⟨j, hj⟩ := buildGraph_has_id storepaths _ (refersTo_mem_scanIds _ _ _ hcb.1).2
    exact ⟨i, j, hi, hj,
      Relation.TransGen.tail hik ((buildGraph_edge_iff storepaths k j).2 ⟨_, _, hcb, hk, hj⟩)⟩

theorem reflReach_without_self_refs (storepaths : List Storepath) (a b : String)
    (h : Relation.ReflTransGen (refersTo storepaths) a b) :
    Relation.ReflTransGen (fun x y => refersTo storepaths x y ∧ x ≠ y) a b := by
  induction h with
  | refl => exact Relation.ReflTransGen.refl
  | @tail c d _ hcd ih =>
    by_cases hc : c = d
    · subst hc
      exact ih
    · exact Relation.ReflTransGen.tail ih ⟨hcd, hc⟩

/-- References of a record to itself do not matter for reaching another identifier. -/
theorem reach_without_self_refs (storepaths : List Storepath) (a b : String) (hne : a ≠ b)
    (h : Relation.TransGen (refersTo storepaths) a b) :
    Relation.TransGen (fun x y => refersTo storepaths x y ∧ x ≠ y) a b := by
  have hrefl := reflReach_without_self_refs storepaths a b h.to_reflTransGen
  rcases Relation.reflTransGen_iff_eq_or_transGen.1 hrefl with heq | htrans
  · exact absurd heq.symm hne
  · exact htrans

theorem reach_with_self_refs (storepaths : List Storepath) (a b : String)
    (h : Relation.TransGen (fun x y => refersTo storepaths x y ∧ x ≠ y) a b) :
    Relation.TransGen (refersTo storepaths) a b :=
  Relation.TransGen.mono (fun _ _ hxy => hxy.1) h

/-- The popularity score computed for the node of `A` is the number of identifiers other
than `A` from which `A` can be reached along references. -/
theorem popularity_eq_card (storepaths : List Storepath) (A : String) (j : Nat)
    (hA : (A, j) ∈ (buildGraph storepaths).1) (SA : Finset String)
    (hSA : ∀ u, u ∈ SA ↔ u ≠ A ∧ Relation.TransGen (refersTo storepaths) u A) :
    popularity (buildGraph storepaths).2 j = SA.card := by
  have hinv := buildGraph_inv storepaths
  have hnd : ((buildGraph storepaths).2.nodes.filter (fun u => decide (u ≠ j) &&
      reachVia (buildGraph storepaths).2.edges (buildGraph storepaths).2.nodes u j)).Nodup := by
    apply List.Nodup.filter
    rw [hinv.nodes]
    exact List.nodup_range _
  unfold popularity
  rw [← List.toFinset_card_of_nodup hnd]
  apply Finset.card_bij (fun i _ => pathOfId (buildGraph storepaths).1 i)
  · intro i hi
    rw [List.mem_toFinset, List.mem_filter, Bool.and_eq_true, decide_eq_true_eq] at hi
    obtain ⟨hin, hij, hreach⟩ := hi
    rw [hinv.nodes, List.mem_range] at hin
    have hlt : i < ((buildGraph storepaths).1.map Prod.fst).length := by simpa using hin
    have hx : (((buildGraph storepaths).1.map Prod.fst)[i], i) ∈ (buildGraph storepaths).1 :=
      (hinv.ids _ _).2 (List.getElem?_eq_getElem hlt)
    rw [pathOfId_buildGraph storepaths _ i hx, hSA]
    have hreach' := (reachVia_iff _ (buildGraph_edge_target storepaths) i j).1 hreach
    refine ⟨fun e => hij (hinv.id_unique hx (e ▸ hA)), ?_⟩
    exact reach_with_self_refs _ _ _ (names_reach_of_nodes_reach storepaths i j hreach' _ _ hx hA)
  · intro i₁ h₁ i₂ h₂ heq
    rw [List.mem_toFinset, List.mem_filter] at h₁ h₂
    have hl₁ : i₁ < ((buildGraph storepaths).1.map Prod.fst).length := by
      have := h₁.1
      rw [hinv.nodes, List.mem_range] at this
      simpa using this
    have hl₂ : i₂ < ((buildGraph storepaths).1.map Prod.fst).length := by
      have := h₂.1
      rw [hinv.nodes, List.mem_range] at this
      simpa using this
    have hx₁ := (hinv.ids _ _).2 (List.getElem?_eq_getElem hl₁)
    have hx₂ := (hinv.ids _ _).2 (List.getElem?_eq_getElem hl₂)
    rw [pathOfId_buildGraph storepaths _ i₁ hx₁, pathOfId_buildGraph storepaths _ i₂ hx₂] at heq
    rw [heq] at hx₁
    exact hinv.id_unique hx₁ hx₂
  · intro b hb
    obtain ⟨hne, hreach⟩ := (hSA b).1 hb
    obtain ⟨i, j', hi, hj', hij⟩ := nodes_reach_of_names_reach storepaths b A
      (reach_without_self_refs storepaths b A hne hreach)
    have hjj : j' = j := hinv.id_unique hj' hA
    subst hjj
    refine ⟨i, ?_, pathOfId_buildGraph storepaths b i hi⟩
    rw [List.mem_toFinset, List.mem_filter, Bool.and_eq_true, decide_eq_true_eq]
    refine ⟨?_, ?_, ?_⟩
    · rw [hinv.nodes, List.mem_range]
      exact hinv.id_lt hi
    · intro e
      exact hne (hinv.key_unique hi (e ▸ hj'))
    · exact (reachVia_iff _ (buildGraph_edge_target storepaths) i j').2 hij

theorem two_sublist {α : Type} (l : List α) (a b : α) (ha : a ∈ l) (hb : b ∈ l)
    (hne : a ≠ b) : [a, b].Sublist l ∨ [b, a].Sublist l := by
  induction l with
  | nil => cases ha
  | cons x rest ih =>
    by_cases hxa : x = a
    · subst hxa
      left
      have hb' : b ∈ rest := by
        rcases List.mem_cons.1 hb with h1 | h1
        · exact absurd h1.symm hne
        · exact h1
      exact List.Sublist.cons₂ _ (List.singleton_sublist.2 hb')
    · by_cases hxb : x = b
      · subst hxb
        right
        have ha' : a ∈ rest := by
          rcases List.mem_cons.1 ha with h1 | h1
          · exact absurd h1 hne
          · exact h1
        exact List.Sublist.cons₂ _ (List.singleton_sublist.2 ha')
      · have ha' : a ∈ rest := by
          rcases List.mem_cons.1 ha with h1 | h1
          · exact absurd h1.symm hxa
          · exact h1
        have hb' : b ∈ rest := by
          rcases List.mem_cons.1 hb with h1 | h1
          · exact absurd h1.symm hxb
          · exact h1
        rcases ih ha' hb' with h1 | h1
        · exact Or.inl (List.Sublist.cons _ h1)
        · exact Or.inr (List.Sublist.cons _ h1)

theorem Score_perm (g : DirectedGraph) :
    (Score g).1.Perm (g.nodes.map (fun v => { id := v, score := (popularity g v : Int) })) :=
  sortSlice_perm _ _

theorem Score_sorted (g : DirectedGraph) :
    (Score g).1.Pairwise (fun a b => ¬ b.score > a.score) := by
  have h := sortSlice_sorted (fun (a b : scored) => decide (a.score > b.score))
    (by
      intro a b hab
      simp only [decide_eq_true_eq, decide_eq_false_iff_not] at hab ⊢
      omega)
    (by
      intro a b c hab hbc
      simp only [decide_eq_false_iff_not] at hab hbc ⊢
      omega)
    (g.nodes.map (fun v => { id := v, score := (popularity g v : Int) }))
  refine List.Pairwise.imp ?_ h
  intro a b hab
  simpa using hab

/-- With the modelled `Score`, the popularity order lists the names of the nodes in the
order of the scored slice, whatever the iteration orders. -/
theorem SortedPathsByPopularity_Score (iter : Nat → List (String × Nat))
    (storepaths : List Storepath) (hiter : ∀ i, (iter i).Perm (buildGraph storepaths).1) :
    SortedPathsByPopularity Score iter storepaths =
      ((Score (buildGraph storepaths).2).1.map
        (fun s => pathOfId (buildGraph storepaths).1 s.id), none) := by
  rw [SortedPathsByPopularity_iter Score iter storepaths hiter]
  rfl

/-- With the modelled `Score`, the popularity order lists every identifier once. -/
theorem SortedPathsByPopularity_nodup (iter : Nat → List (String × Nat))
    (storepaths : List Storepath) (hiter : ∀ i, (iter i).Perm (buildGraph storepaths).1) :
    (SortedPathsByPopularity Score iter storepaths).1.Nodup := by
  have hinv := buildGraph_inv storepaths
  rw [SortedPathsByPopularity_Score iter storepaths hiter]
  have hperm := (Score_perm (buildGraph storepaths).2).map
    (fun s => pathOfId (buildGraph storepaths).1 s.id)
  rw [hperm.nodup_iff, List.map_map]
  refine List.Nodup.map_on ?_ ?_
  · intro i₁ h₁ i₂ h₂ heq
    rw [hinv.nodes, List.mem_range] at h₁ h₂
    have hl₁ : i₁ < ((buildGraph storepaths).1.map Prod.fst).length := by simpa using h₁
    have hl₂ : i₂ < ((buildGraph storepaths).1.map Prod.fst).length := by simpa using h₂
    have hx₁ := (hinv.ids _ _).2 (List.getElem?_eq_getElem hl₁)
    have hx₂ := (hinv.ids _ _).2 (List.getElem?_eq_getElem hl₂)
    simp only [Function.comp] at heq
    rw [pathOfId_buildGraph storepaths _ i₁ hx₁, pathOfId_buildGraph storepaths _ i₂ hx₂] at heq
    rw [heq] at hx₁
    exact hinv.id_unique hx₁ hx₂
  · rw [hinv.nodes]
    exact List.nodup_range _

theorem refersTo_closureExample (u x : String) :
    refersTo closureExample u x ↔
      (u = "a" ∧ (x = "b" ∨ x = "c")) ∨ (u = "c" ∧ x = "b") := by
  constructor
  · rintro ⟨p, hp, hpu, hx⟩
    simp only [closureExample, List.mem_cons, List.mem_singleton, List.not_mem_nil,
      or_false] at hp
    rcases hp with hp | hp | hp
    · subst hp
      simp only [refRecord, List.mem_cons, List.mem_singleton, List.not_mem_nil,
        or_false] at hpu hx
      exact Or.inl ⟨hpu.symm, hx⟩
    · subst hp
      simp only [refRecord, List.not_mem_nil] at hx
    · subst hp
      simp only [refRecord, List.mem_cons, List.mem_singleton, List.not_mem_nil,
        or_false] at hpu hx
      exact Or.inr ⟨hpu.symm, hx⟩
  · rintro (⟨h1, h2⟩ | ⟨h1, h2⟩)
    · refine ⟨refRecord "a" ["b", "c"], by simp [closureExample], h1.symm, ?_⟩
      rcases h2 with h2 | h2 <;> simp [refRecord, h2]
    · exact ⟨refRecord "c" ["b"], by simp [closureExample], h1.symm, by simp [refRecord, h2]⟩

theorem closureExample_reach_b (u : String) :
    u ∈ ({"a", "c"} : Finset String) ↔
      u ≠ "b" ∧ Relation.TransGen (refersTo closureExample) u "b" := by
  rw [Finset.mem_insert, Finset.mem_singleton]
  constructor
  · rintro (h | h)
    · subst h
      exact ⟨by decide, Relation.TransGen.single
        ((refersTo_closureExample _ _).2 (Or.inl ⟨rfl, Or.inl rfl⟩))⟩
    · subst h
      exact ⟨by decide, Relation.TransGen.single
        ((refersTo_closureExample _ _).2 (Or.inr ⟨rfl, rfl⟩))⟩
  · rintro ⟨_, h⟩
    obtain ⟨x, hux, _⟩ := Relation.TransGen.head'_iff.1 h
    rcases (refersTo_closureExample _ _).1 hux with ⟨h1, _⟩ | ⟨h1, _⟩
    · exact Or.inl h1
    · exact Or.inr h1

theorem closureExample_reach_c (u : String) :
    u ∈ ({"a"} : Finset String) ↔
      u ≠ "c" ∧ Relation.TransGen (refersTo closureExample) u "c" := by
  rw [Finset.mem_singleton]
  constructor
  · intro h
    subst h
    exact ⟨by decide, Relation.TransGen.single
      ((refersTo_closureExample _ _).2 (Or.inl ⟨rfl, Or.inr rfl⟩))⟩
  · rintro ⟨hne, h⟩
    obtain ⟨x, hux, _⟩ := Relation.TransGen.head'_iff.1 h
    rcases (refersTo_closureExample _ _).1 hux with ⟨h1, _⟩ | ⟨h1, _⟩
    · exact h1
    · exact absurd h1 hne

/-! ## Popularity order (`SortedPathsByPopularity`) -/

/-- C11: with the scoring function modelled from the spec, if the identifier `A` can be
reached along reference edges from strictly more distinct other identifiers than the
identifier `B` of the closure (`SA` and `SB` are the two sets of identifiers), then `A`
appears before `B` in the list returned by `SortedPathsByPopularity`, which lists every
identifier once and comes without error, whatever the iteration orders of the map. -/
theorem SortedPathsByPopularity_reachability (iter : Nat → List (String × Nat))
    (storepaths : List Storepath) (hiter : ∀ i, (iter i).Perm (buildGraph storepaths).1)
    (A B : String) (hB : ∃ p ∈ storepaths, B = p.Path ∨ B ∈ p.References)
    (SA SB : Finset String)
    (hSA : ∀ u, u ∈ SA ↔ u ≠ A ∧ Relation.TransGen (refersTo storepaths) u A)
    (hSB : ∀ u, u ∈ SB ↔ u ≠ B ∧ Relation.TransGen (refersTo storepaths) u B)
    (hlt : SB.card < SA.card) :
    (SortedPathsByPopularity Score iter storepaths).2 = none ∧
    (SortedPathsByPopularity Score iter storepaths).1.Nodup ∧
    [A, B].Sublist (SortedPathsByPopularity Score iter storepaths).1 := by
  have hinv := buildGraph_inv storepaths
  refine ⟨?_, SortedPathsByPopularity_nodup iter storepaths hiter, ?_⟩
  · rw [SortedPathsByPopularity_Score iter storepaths hiter]
  · have hAmem : A ∈ scanIds storepaths := by
      have hpos : 0 < SA.card := by omega
      obtain ⟨u, hu⟩ := Finset.card_pos.1 hpos
      obtain ⟨_, hreach⟩ := (hSA u).1 hu
      obtain ⟨c, _, hcA⟩ := Relation.TransGen.tail'_iff.1 hreach
      exact (refersTo_mem_scanIds _ _ _ hcA).2
    obtain ⟨jA, hjA⟩ := buildGraph_has_id storepaths A hAmem
    obtain ⟨jB, hjB⟩ := buildGraph_has_id storepaths B ((mem_scanIds _ _).2 hB)
    have hsA := popularity_eq_card storepaths A jA hjA SA hSA
    have hsB := popularity_eq_card storepaths B jB hjB SB hSB
    have hmem : ∀ (x : String) (j : Nat), (x, j) ∈ (buildGraph storepaths).1 →
        ({ id := j, score := (popularity (buildGraph storepaths).2 j : Int) } : scored)
          ∈ (Score (buildGraph storepaths).2).1 := by
      intro x j hx
      apply (Score_perm _).symm.subset
      refine List.mem_map.2 ⟨j, ?_, rfl⟩
      rw [hinv.nodes, List.mem_range]
      exact hinv.id_lt hx
    have hne : ({ id := jA, score := (popularity (buildGraph storepaths).2 jA : Int) } : scored)
        ≠ { id := jB, score := (popularity (buildGraph storepaths).2 jB : Int) } := by
      intro e
      have := congrArg scored.score e
      simp only [Nat.cast_inj] at this
      omega
    have hsub : [({ id := jA, score := (popularity (buildGraph storepaths).2 jA : Int) } :
          scored), { id := jB, score := (popularity (buildGraph storepaths).2 jB : Int) }].Sublist
        (Score (buildGraph storepaths).2).1 := by
      rcases two_sublist _ _ _ (hmem A jA hjA) (hmem B jB hjB) hne with h1 | h1
      · exact h1
      · exfalso
        have := List.pairwise_iff_forall_sublist.1 (Score_sorted (buildGraph storepaths).2) h1
        apply this
        simp only [gt_iff_lt, Nat.cast_lt]
        omega
    rw [SortedPathsByPopularity_Score iter storepaths hiter]
    have hmap := hsub.map (fun s => pathOfId (buildGraph storepaths).1 s.id)
    simp only [List.map_cons, List.map_nil] at hmap
    rw [pathOfId_buildGraph storepaths A jA hjA, pathOfId_buildGraph storepaths B jB hjB] at hmap
    exact hmap

/-- C11, on the closure `a → b, c`, `b`, `c → b`: `b` is reached from `a` and `c`, `c` only
from `a`, and the order returned is `b, c, a`, with `b` before `c`. -/
theorem SortedPathsByPopularity_reachability_witness :
    SortedPathsByPopularity Score (fun _ => [("c", 2), ("a", 0), ("b", 1)]) closureExample
      = (["b", "c", "a"], none) ∧
    ["b", "c"].Sublist
      (SortedPathsByPopularity Score (fun _ => [("c", 2), ("a", 0), ("b", 1)])
        closureExample).1 :=
  ⟨by decide,
    (SortedPathsByPopularity_reachability (fun _ => [("c", 2), ("a", 0), ("b", 1)])
      closureExample
      (fun _ => (by decide :
        [("c", 2), ("a", 0), ("b", 1)].Perm (buildGraph closureExample).1))
      "b" "c" ⟨refRecord "c" ["b"], by decide, Or.inl rfl⟩ {"a", "c"} {"a"}
      closureExample_reach_b closureExample_reach_c (by decide)).2.2⟩

/-! ## Facts about the closure file -/

theorem decodeStringElems_ok (elems : List Json)
    (h : ∀ e ∈ elems, e = Json.null ∨ ∃ x, e = Json.str x) :
    ∃ xs, decodeStringElems elems = .ok xs := by
  induction elems with
  | nil => exact ⟨[], rfl⟩
  | cons j rest ih =>
    obtain ⟨xs, hxs⟩ := ih (fun e he => h e (List.mem_cons_of_mem _ he))
    rcases h j (List.mem_cons_self _ _) with hj | ⟨x, hj⟩
    · subst hj
      exact ⟨"" :: xs, by simp [decodeStringElems, decodeString, hxs]⟩
    · subst hj
      exact ⟨x :: xs, by simp [decodeStringElems, decodeString, hxs]⟩

theorem decodeStringElems_error (elems : List Json)
    (h : ¬ ∀ e ∈ elems, e = Json.null ∨ ∃ x, e = Json.str x) :
    ∃ err, decodeStringElems elems = .error err := by
  induction elems with
  | nil => exact absurd (fun e he => by cases he) h
  | cons j rest ih =>
    unfold decodeStringElems
    cases hj : decodeString "" j with
    | error e => exact ⟨e, rfl⟩
    | ok x =>
      have hjt : j = Json.null ∨ ∃ x, j = Json.str x := by
        cases j <;> simp [decodeString] at hj ⊢
      have hrest : ¬ ∀ e ∈ rest, e = Json.null ∨ ∃ x, e = Json.str x := by
        intro hall
        apply h
        intro e he
        rcases List.mem_cons.1 he with h1 | h1
        · rw [h1]; exact hjt
        · exact hall e h1
      obtain ⟨err, herr⟩ := ih hrest
      exact ⟨err, by simp [herr]⟩

/-- A value of an accepted type is stored; only the `path` member changes the path. -/
theorem setField_of_wellTyped (sp : Storepath) (f : Field) (v : Json) (h : wellTyped f v) :
    ∃ sp', setField sp f v = .ok sp' ∧ (f ≠ Field.Path → sp'.Path = sp.Path) := by
  cases f <;> cases v <;>
    simp only [wellTyped] at h <;>
    first
      | exact absurd h id
      | (simp [setField, decodeString, decodeInt64, decodeStrings, h]; done)
      | skip
  case References.arr elems =>
    obtain ⟨xs, hxs⟩ := decodeStringElems_ok elems h
    exact ⟨{ sp with References := xs }, by simp [setField, decodeStrings, hxs], fun _ => rfl⟩

/-- A value of a type that is not accepted is a type error. -/
theorem setField_error_of_not_wellTyped (sp : Storepath) (f : Field) (v : Json)
    (h : ¬ wellTyped f v) : ∃ err, setField sp f v = .error err := by
  cases f <;> cases v <;>
    simp only [wellTyped, not_true_eq_false, not_false_eq_true] at h <;>
    first
      | exact absurd h id
      | (simp [setField, decodeString, decodeInt64, decodeStrings, h]; done)
      | skip
  case References.arr elems =>
    obtain ⟨err, herr⟩ := decodeStringElems_error elems h
    exact ⟨err, by simp [setField, decodeStrings, herr]⟩

theorem decodeMembers_ok (keyField : String → Option Field) (members : List (String × Json)) :
    ∀ (sp : Storepath),
      (∀ kv ∈ members, ∀ f, keyField kv.1 = some f → wellTyped f kv.2) →
      ∃ sp', decodeMembers keyField members sp = .ok sp' ∧
        ((∀ kv ∈ members, keyField kv.1 ≠ some Field.Path) → sp'.Path = sp.Path) := by
  induction members with
  | nil =>
    intro sp _
    exact ⟨sp, rfl, fun _ => rfl⟩
  | cons kv rest ih =>
    intro sp h
    have hrest : ∀ kv' ∈ rest, ∀ f, keyField kv'.1 = some f → wellTyped f kv'.2 :=
      fun kv' hkv' => h kv' (List.mem_cons_of_mem _ hkv')
    unfold decodeMembers
    cases hk : keyField kv.1 with
    | none =>
      obtain ⟨sp', hsp', hpath⟩ := ih sp hrest
      exact ⟨sp', hsp', fun hno => hpath (fun kv' hkv' => hno kv' (List.mem_cons_of_mem _ hkv'))⟩
    | some f =>
      obtain ⟨sp₁, hsp₁, hpath₁⟩ :=
        setField_of_wellTyped sp f kv.2 (h kv (List.mem_cons_self _ _) f hk)
      obtain ⟨sp', hsp', hpath⟩ := ih sp₁ hrest
      refine ⟨sp', by simp only [hsp₁]; exact hsp', ?_⟩
      intro hno
      have hf : f ≠ Field.Path := by
        intro e
        exact hno kv (List.mem_cons_self _ _) (e ▸ hk)
      rw [hpath (fun kv' hkv' => hno kv' (List.mem_cons_of_mem _ hkv')), hpath₁ hf]

theorem decodeMembers_error (keyField : String → Option Field)
    (members : List (String × Json)) :
    ∀ (sp : Storepath),
      (∃ kv ∈ members, ∃ f, keyField kv.1 = some f ∧ ¬ wellTyped f kv.2) →
      ∃ err, decodeMembers keyField members sp = .error err := by
  induction members with
  | nil =>
    rintro sp ⟨kv, hkv, _⟩
    cases hkv
  | cons kv rest ih =>
    rintro sp ⟨kv', hkv', f', hf', hbad⟩
    unfold decodeMembers
    cases hk : keyField kv.1 with
    | none =>
      rcases List.mem_cons.1 hkv' with h1 | h1
      · subst h1
        rw [hk] at hf'
        cases hf'
      · exact ih sp ⟨kv', h1, f', hf', hbad⟩
    | some f =>
      simp only
      cases hset : setField sp f kv.2 with
      | error e => exact ⟨e, rfl⟩
      | ok sp₁ =>
        simp only
        rcases List.mem_cons.1 hkv' with h1 | h1
        · subst h1
          rw [hk] at hf'
          have hff : f = f' := Option.some.inj hf'
          rw [← hff] at hbad
          obtain ⟨err, herr⟩ := setField_error_of_not_wellTyped sp f kv'.2 hbad
          rw [herr] at hset
          cases hset
        · exact ih sp₁ ⟨kv', h1, f', hf', hbad⟩

theorem decodeRecords_ok (keyField : String → Option Field)
    (records : List (List (String × Json)))
    (h : ∀ members ∈ records, ∀ kv ∈ members, ∀ f, keyField kv.1 = some f →
      wellTyped f kv.2) :
    ∃ sps, decodeRecords keyField (records.map Json.obj) = .ok sps ∧
      List.Forall₂
        (fun members sp => (∀ kv ∈ members, keyField kv.1 ≠ some Field.Path) → sp.Path = "")
        records sps := by
  induction records with
  | nil => exact ⟨[], rfl, List.Forall₂.nil⟩
  | cons members rest ih =>
    obtain ⟨sps, hsps, hall⟩ := ih (fun m hm => h m (List.mem_cons_of_mem _ hm))
    obtain ⟨sp, hsp, hpath⟩ :=
      decodeMembers_ok keyField members zeroStorepath (h members (List.mem_cons_self _ _))
    refine ⟨sp :: sps, ?_, List.Forall₂.cons hpath hall⟩
    simp only [List.map_cons, decodeRecords, decodeRecord, hsp, hsps]

theorem decodeRecords_error (keyField : String → Option Field)
    (records : List (List (String × Json)))
    (h : ∃ members ∈ records, ∃ kv ∈ members, ∃ f, keyField kv.1 = some f ∧
      ¬ wellTyped f kv.2) :
    ∃ err, decodeRecords keyField (records.map Json.obj) = .error err := by
  induction records with
  | nil =>
    obtain ⟨m, hm, _⟩ := h
    cases hm
  | cons members rest ih =>
    obtain ⟨m, hm, hbad⟩ := h
    simp only [List.map_cons, decodeRecords, decodeRecord]
    cases hdec : decodeMembers keyField members zeroStorepath with
    | error e => exact ⟨e, rfl⟩
    | ok sp =>
      rcases List.mem_cons.1 hm with h1 | h1
      · subst h1
        obtain ⟨err, herr⟩ := decodeMembers_error keyField m zeroStorepath hbad
        rw [herr] at hdec
        cases hdec
      · obtain ⟨err, herr⟩ := ih ⟨m, h1, hbad⟩
        exact ⟨err, by simp only [herr]⟩

/-! ## Reading the closure file (`ReadClosureGraphFile`) -/

/-- C14, as stated, fails: the file `closure.json` holds one record without `path` member,
and `ReadClosureGraphFile` returns it with the empty string as its path, `buildGraph` builds
a graph from it and `SortedPathsByNarSize` returns a path list without error. -/
theorem ReadClosureGraphFile_accepts_missing_path :
    sampleFiles "closure.json"
      = .ok (some (.arr [.obj [("references", .arr [.str "b"]), ("narSize", .num 3)]])) ∧
    [("references", Json.arr [.str "b"]), ("narSize", Json.num 3)].map
        (fun kv => exactKeyField kv.1) = [some Field.References, some Field.NarSize] ∧
    ReadClosureGraphFile sampleFiles exactKeyField "closure.json"
      = .ok [{ Path := "", References := ["b"], NarSize := 3, ClosureSize := 0,
               NarHash := "" }] ∧
    buildGraph [{ Path := "", References := ["b"], NarSize := 3, ClosureSize := 0,
                  NarHash := "" }]
      = ([("", 0), ("b", 1)], { nodes := [0, 1], edges := [(0, 1)] }) ∧
    SortedPathsByNarSize [{ Path := "", References := ["b"], NarSize := 3, ClosureSize := 0,
                            NarHash := "" }] = ([""], none) :=
  ⟨rfl, by decide, rfl, by decide, by decide⟩

/-- C14, amended: `ReadClosureGraphFile` fails when the file cannot be read, when its
content is not JSON, and when a member of a record has a value of a JSON type that its field
does not accept. On a JSON list of records whose members all have accepted types it
succeeds, also when a record has no `path` member: such a record is returned with the empty
string as its path, and `SortedPathsByNarSize` returns a path list for the records, without
error. -/
theorem ReadClosureGraphFile_outcome (readFile : String → Except Error (Option Json))
    (keyField : String → Option Field) (filename : String) :
    (∀ err, readFile filename = .error err →
      ReadClosureGraphFile readFile keyField filename = .error err) ∧
    (readFile filename = .ok none →
      ReadClosureGraphFile readFile keyField filename = .error syntaxError) ∧
    (∀ records : List (List (String × Json)),
      readFile filename = .ok (some (.arr (records.map Json.obj))) →
      (∃ members ∈ records, ∃ kv ∈ members, ∃ f, keyField kv.1 = some f ∧
        ¬ wellTyped f kv.2) →
      ∃ err, ReadClosureGraphFile readFile keyField filename = .error err) ∧
    (∀ records : List (List (String × Json)),
      readFile filename = .ok (some (.arr (records.map Json.obj))) →
      (∀ members ∈ records, ∀ kv ∈ members, ∀ f, keyField kv.1 = some f →
        wellTyped f kv.2) →
      ∃ sps, ReadClosureGraphFile readFile keyField filename = .ok sps ∧
        List.Forall₂
          (fun members sp =>
            (∀ kv ∈ members, keyField kv.1 ≠ some Field.Path) → sp.Path = "")
          records sps ∧
        (SortedPathsByNarSize sps).2 = none ∧
        (SortedPathsByNarSize sps).1.length = records.length) := by
  refine ⟨?_, ?_, ?_, ?_⟩
  · intro err h
    simp only [ReadClosureGraphFile, h]
  · intro h
    simp only [ReadClosureGraphFile, h]
  · intro records h hbad
    obtain ⟨err, herr⟩ := decodeRecords_error keyField records hbad
    exact ⟨err, by simp only [ReadClosureGraphFile, h, unmarshalStorepaths, herr]⟩
  · intro records h hgood
    obtain ⟨sps, hsps, hall⟩ := decodeRecords_ok keyField records hgood
    refine ⟨sps, by simp only [ReadClosureGraphFile, h, unmarshalStorepaths, hsps], hall,
      rfl, ?_⟩
    rw [(SortedPathsByNarSize_perm sps).2.2, hall.length_eq]

/-- C14, amended, on the file `closure.json`: its single record has members of accepted
types and no `path` member, so it is read, with the empty string as its path. -/
theorem ReadClosureGraphFile_outcome_witness :
    ∃ sps, ReadClosureGraphFile sampleFiles exactKeyField "closure.json" = .ok sps ∧
      List.Forall₂
        (fun members sp =>
          (∀ kv ∈ members, exactKeyField kv.1 ≠ some Field.Path) → sp.Path = "")
        [[("references", Json.arr [.str "b"]), ("narSize", Json.num 3)]] sps ∧
      (SortedPathsByNarSize sps).2 = none ∧
      (SortedPathsByNarSize sps).1.length
        = [[("references", Json.arr [.str "b"]), ("narSize", Json.num 3)]].length :=
  (ReadClosureGraphFile_outcome sampleFiles exactKeyField "closure.json").2.2.2
    [[("references", Json.arr [.str "b"]), ("narSize", Json.num 3)]] rfl
    (by
      intro members hm kv hkv f hf
      simp only [List.mem_singleton] at hm
      subst hm
      simp only [List.mem_cons, List.mem_singleton, List.not_mem_nil, or_false] at hkv
      rcases hkv with h1 | h1
      · subst h1
        have : f = Field.References := by
          have h2 : exactKeyField "references" = some Field.References := by decide
          rw [h2] at hf
          exact (Option.some.inj hf).symm
        subst this
        intro e he
        simp only [List.mem_singleton] at he
        exact Or.inr ⟨"b", he⟩
      · subst h1
        have : f = Field.NarSize := by
          have h2 : exactKeyField "narSize" = some Field.NarSize := by decide
          rw [h2] at hf
          exact (Option.some.inj hf).symm
        subst this
        simp [wellTyped])

end Nix2Container
